import Mathlib

/-!
Shallow embedding of the lsm-go key/value store core: bloom filter,
memtable, WAL, SSTable builder/reader, compactor and engine, with the
spec claims settled as theorems at the end of the file.

Byte strings are modelled as `List Nat` (each element a byte value);
machine integers are `Nat` with explicit `% 2^w` where Go truncates.
Loops are modelled by fuel-indexed structural recursion so that every
definition computes inside the kernel; each fuel argument is
instantiated with a bound that provably exceeds the iteration count.
-/

namespace LSM

open List

/-! ### Little-endian integer encodings (`encoding/binary`) -/

def le16 (n : Nat) : List Nat :=
  [n % 256, n / 256 % 256]

def le32 (n : Nat) : List Nat :=
  [n % 256, n / 256 % 256, n / 2 ^ 16 % 256, n / 2 ^ 24 % 256]

def le64 (n : Nat) : List Nat :=
  [n % 256, n / 256 % 256, n / 2 ^ 16 % 256, n / 2 ^ 24 % 256,
   n / 2 ^ 32 % 256, n / 2 ^ 40 % 256, n / 2 ^ 48 % 256, n / 2 ^ 56 % 256]

/-- Decode a 16-bit little-endian integer from the first two bytes. -/
def de16 (b : List Nat) : Nat :=
  b.getD 0 0 + b.getD 1 0 * 256

/-- Decode a 32-bit little-endian integer from the first four bytes. -/
def de32 (b : List Nat) : Nat :=
  b.getD 0 0 + b.getD 1 0 * 256 + b.getD 2 0 * 2 ^ 16 + b.getD 3 0 * 2 ^ 24

/-- Decode a 64-bit little-endian integer from the first eight bytes. -/
def de64 (b : List Nat) : Nat :=
  b.getD 0 0 + b.getD 1 0 * 256 + b.getD 2 0 * 2 ^ 16 + b.getD 3 0 * 2 ^ 24 +
  b.getD 4 0 * 2 ^ 32 + b.getD 5 0 * 2 ^ 40 + b.getD 6 0 * 2 ^ 48 + b.getD 7 0 * 2 ^ 56

theorem le32_length (n : Nat) : (le32 n).length = 4 := rfl

theorem le64_length (n : Nat) : (le64 n).length = 8 := rfl

theorem de32_le32 (n : Nat) (h : n < 2 ^ 32) : de32 (le32 n) = n := by
  simp only [le32, de32, List.getD_cons_zero, List.getD_cons_succ]
  omega

theorem de64_le64 (n : Nat) (h : n < 2 ^ 64) : de64 (le64 n) = n := by
  simp only [le64, de64, List.getD_cons_zero, List.getD_cons_succ]
  omega

theorem de16_le16 (n : Nat) (h : n < 2 ^ 16) : de16 (le16 n) = n := by
  simp only [le16, de16, List.getD_cons_zero, List.getD_cons_succ]
  omega

/-- `de32` only looks at the first four bytes. -/
theorem de32_append (b c : List Nat) (h : b.length = 4) :
    de32 (b ++ c) = de32 b := by
  match b, h with
  | [b0, b1, b2, b3], _ => rfl

/-- `de64` only looks at the first eight bytes. -/
theorem de64_append (b c : List Nat) (h : b.length = 8) :
    de64 (b ++ c) = de64 b := by
  match b, h with
  | [b0, b1, b2, b3, b4, b5, b6, b7], _ => rfl

/-! ### Byte-string comparison (`bytes.Compare` / `bytes.Equal`) -/

/-- Three-way lexicographic comparison of byte strings, matching
Go's `bytes.Compare` (a proper prefix is smaller). -/
def bytesCmp : List Nat → List Nat → Ordering
  | [], [] => .eq
  | [], _ :: _ => .lt
  | _ :: _, [] => .gt
  | a :: as, b :: bs =>
    if a < b then .lt else if b < a then .gt else bytesCmp as bs

/-- `bytes.Compare a b < 0`. -/
def bytesLt (a b : List Nat) : Bool :=
  bytesCmp a b = Ordering.lt

/-- `bytes.Compare a b <= 0`. -/
def bytesLe (a b : List Nat) : Bool :=
  bytesCmp a b ≠ Ordering.gt

theorem bytesCmp_eq_iff (a b : List Nat) : bytesCmp a b = .eq ↔ a = b := by
  induction a generalizing b with
  | nil => cases b <;> simp [bytesCmp]
  | cons x xs ih =>
    cases b with
    | nil => simp [bytesCmp]
    | cons y ys =>
      by_cases hxy : x < y
      · simp only [bytesCmp, if_pos hxy]
        constructor
        · intro h; cases h
        · intro h
          injection h with h1 h2
          omega
      · by_cases hyx : y < x
        · simp only [bytesCmp, if_neg hxy, if_pos hyx]
          constructor
          · intro h; cases h
          · intro h
            injection h with h1 h2
            omega
        · have hxe : x = y := by omega
          subst hxe
          simp only [bytesCmp, if_neg hxy, if_neg hyx, ih, List.cons.injEq, true_and]

theorem bytesCmp_refl (a : List Nat) : bytesCmp a a = .eq :=
  (bytesCmp_eq_iff a a).mpr rfl

/-- `bytesCmp` swaps under argument exchange. -/
theorem bytesCmp_swap (a b : List Nat) : bytesCmp b a = (bytesCmp a b).swap := by
  induction a generalizing b with
  | nil => cases b <;> rfl
  | cons x xs ih =>
    cases b with
    | nil => rfl
    | cons y ys =>
      by_cases hxy : x < y
      · have : ¬ y < x := by omega
        simp [bytesCmp, hxy, this, Ordering.swap]
      · by_cases hyx : y < x
        · simp [bytesCmp, hxy, hyx, Ordering.swap]
        · simp [bytesCmp, hxy, hyx, ih ys]

theorem bytesLt_trans {a b c : List Nat} (h1 : bytesLt a b) (h2 : bytesLt b c) :
    bytesLt a c := by
  simp only [bytesLt, decide_eq_true_eq] at *
  induction a generalizing b c with
  | nil =>
    cases b with
    | nil => cases h1
    | cons y ys => cases c with
      | nil => cases h2
      | cons z zs => rfl
  | cons x xs ih =>
    cases b with
    | nil => cases h1
    | cons y ys =>
      cases c with
      | nil => cases h2
      | cons z zs =>
        simp only [bytesCmp] at h1 h2 ⊢
        by_cases hxy : x < y <;> by_cases hyz : y < z
        · have hxz : x < z := by omega
          simp [hxz]
        · simp only [if_pos hxy] at h1
          by_cases hzy : z < y
          · simp [if_neg hyz, if_pos hzy] at h2
          · have : y = z := by omega
            subst this
            simp [hxy]
        · simp only [if_neg hxy] at h1
          by_cases hyx : y < x
          · simp [if_pos hyx] at h1
          · have : x = y := by omega
            subst this
            simp [hyz]
        · simp only [if_neg hxy] at h1
          by_cases hyx : y < x
          · simp [if_pos hyx] at h1
          · have hxeq : x = y := by omega
            simp only [if_neg hyx] at h1
            simp only [if_neg hyz] at h2
            by_cases hzy : z < y
            · simp [if_pos hzy] at h2
            · have hyeq : y = z := by omega
              simp only [if_neg hzy] at h2
              have hxz : ¬ x < z := by omega
              have hzx : ¬ z < x := by omega
              simp only [if_neg hxz, if_neg hzx]
              subst hxeq hyeq
              exact ih h1 h2

theorem bytesLe_of_not_lt {a b : List Nat} (h : ¬ bytesLt b a) : bytesLe a b := by
  simp only [bytesLt, bytesLe, decide_eq_true_eq, ne_eq, decide_eq_true_eq] at *
  intro hgt
  apply h
  rw [bytesCmp_swap, hgt]
  rfl

theorem bytesLt_of_le_of_ne {a b : List Nat} (h : bytesLe a b) (hne : a ≠ b) :
    bytesLt a b := by
  simp only [bytesLt, bytesLe, decide_eq_true_eq, ne_eq, decide_eq_true_eq] at *
  rcases hcmp : bytesCmp a b with _ | _ | _
  · rfl
  · exact absurd ((bytesCmp_eq_iff a b).mp hcmp) hne
  · exact absurd hcmp h

theorem bytesLt_le_trans {a b c : List Nat} (h1 : bytesLt a b) (h2 : bytesLe b c) :
    bytesLt a c := by
  by_cases hbc : b = c
  · subst hbc; exact h1
  · exact bytesLt_trans h1 (bytesLt_of_le_of_ne h2 hbc)

theorem bytesLe_trans {a b c : List Nat} (h1 : bytesLe a b) (h2 : bytesLe b c) :
    bytesLe a c := by
  by_cases hab : a = b
  · subst hab; exact h2
  · by_cases hbc : b = c
    · subst hbc; exact h1
    · have := bytesLt_trans (bytesLt_of_le_of_ne h1 hab) (bytesLt_of_le_of_ne h2 hbc)
      simp only [bytesLt, decide_eq_true_eq] at this
      simp [bytesLe, this]

theorem bytesLe_refl (a : List Nat) : bytesLe a a := by
  simp [bytesLe, bytesCmp_refl]

theorem bytesLt_irrefl (a : List Nat) : ¬ bytesLt a a := by
  simp [bytesLt, bytesCmp_refl]

theorem bytesLe_of_lt {a b : List Nat} (h : bytesLt a b) : bytesLe a b := by
  simp only [bytesLt, decide_eq_true_eq] at h
  simp [bytesLe, h]

theorem bytesLt_ne {a b : List Nat} (h : bytesLt a b) : a ≠ b := by
  intro he
  subst he
  exact bytesLt_irrefl a h

/-! ### Bloom filter (`bloom/bloom.go`) -/

/-- `bloom.Filter`: `k` hash functions, `bits` capacity, byte buffer. -/
structure Filter where
  k : Nat
  bits : Nat
  buf : List Nat
deriving DecidableEq

/-- `bloom.New`. -/
def bloomNew (bits0 k0 : Nat) : Filter :=
  let k := if k0 = 0 then 7 else k0
  let bits1 := if bits0 < 8 then 8 else bits0
  let byteLen := (bits1 + 7) / 8
  { k := k, bits := byteLen * 8, buf := List.replicate byteLen 0 }

/-- `bloom.NewForKeys`; the `uint32` multiplication wraps mod `2 ^ 32`. -/
def newForKeys (nkeys bitsPerKey k : Nat) : Filter :=
  let n := if nkeys < 1 then 1 else nkeys
  let b := if bitsPerKey = 0 then 10 else bitsPerKey
  bloomNew (n % 2 ^ 32 * b % 2 ^ 32) k

/-- FNV-1a 64-bit hash (`hash/fnv`). -/
def fnv64a (bytes : List Nat) : Nat :=
  bytes.foldl (fun h b => (h ^^^ b) * 1099511628211 % 2 ^ 64) 14695981039346656037

/-- `bloom.hash2`: two 64-bit hashes for double hashing. -/
def hash2 (key : List Nat) : Nat × Nat :=
  let h1 := fnv64a key
  let h2 := fnv64a (0x7f :: key)
  (h1, if h2 = 0 then 0x9e3779b97f4a7c15 else h2)

/-- `Filter.setBit` (out-of-range `List.set` is a no-op, never hit in use). -/
def Filter.setBit (f : Filter) (bit : Nat) : Filter :=
  let byteIdx := bit / 8
  let mask := 1 <<< (bit % 8)
  { f with buf := f.buf.set byteIdx (f.buf.getD byteIdx 0 ||| mask) }

/-- `Filter.getBit`. -/
def Filter.getBit (f : Filter) (bit : Nat) : Bool :=
  f.buf.getD (bit / 8) 0 &&& (1 <<< (bit % 8)) ≠ 0

/-- The probed bit index for probe number `i`: `(h1 + i*h2) mod 2^64 mod bits`. -/
def probeBit (h1 h2 i bits : Nat) : Nat :=
  (h1 + i * h2) % 2 ^ 64 % bits

/-- `Filter.Add`. -/
def Filter.add (f : Filter) (key : List Nat) : Filter :=
  let p := hash2 key
  (List.range f.k).foldl (fun g i => g.setBit (probeBit p.1 p.2 i g.bits)) f

/-- `Filter.MaybeContains`. -/
def Filter.maybeContains (f : Filter) (key : List Nat) : Bool :=
  let p := hash2 key
  (List.range f.k).all (fun i => f.getBit (probeBit p.1 p.2 i f.bits))

/-- `bloom.Filter.Encode`: `[u8 k][u32 bits LE][buf]`. -/
def Filter.encode (f : Filter) : List Nat :=
  [f.k % 256] ++ le32 (f.bits % 2 ^ 32) ++ f.buf

/-- `bloom.Decode`. -/
def bloomDecode (b : List Nat) : Option Filter :=
  if b.length < 5 then none
  else
    let k := b.getD 0 0
    let bits := de32 (b.drop 1)
    let buf := b.drop 5
    if bits = 0 ∨ k = 0 then none
    else if buf.length % 2 ^ 32 * 8 % 2 ^ 32 = bits then some ⟨k, bits, buf⟩
    else none

/-- Structural invariant maintained by `bloomNew` and `bloomDecode`
on every reachable filter: capacity matches the byte buffer. -/
def Filter.wf (f : Filter) : Prop :=
  f.bits = 8 * f.buf.length ∧ 0 < f.bits

instance (f : Filter) : Decidable f.wf := by
  unfold Filter.wf
  infer_instance

theorem getD_set_self (l : List Nat) {i : Nat} (v : Nat) (h : i < l.length) :
    (l.set i v).getD i 0 = v := by
  simp [List.getD_eq_getElem?_getD, List.getElem?_set_self h]

theorem getD_set_ne (l : List Nat) {i j : Nat} (v : Nat) (h : i ≠ j) :
    (l.set i v).getD j 0 = l.getD j 0 := by
  simp [List.getD_eq_getElem?_getD, List.getElem?_set_ne h]

theorem bloomNew_wf (bits0 k0 : Nat) : (bloomNew bits0 k0).wf := by
  by_cases h : bits0 < 8
  · simp [bloomNew, Filter.wf, h]
    try omega
  · simp [bloomNew, Filter.wf, h]
    try omega

theorem newForKeys_wf (n b k : Nat) : (newForKeys n b k).wf := bloomNew_wf _ _

theorem setBit_bits (f : Filter) (bit : Nat) : (f.setBit bit).bits = f.bits := rfl

theorem setBit_buf_length (f : Filter) (bit : Nat) :
    (f.setBit bit).buf.length = f.buf.length := by
  simp [Filter.setBit]

theorem setBit_wf {f : Filter} (h : f.wf) (bit : Nat) : (f.setBit bit).wf := by
  obtain ⟨h1, h2⟩ := h
  exact ⟨by rw [setBit_bits, setBit_buf_length]; exact h1, by rw [setBit_bits]; exact h2⟩

theorem and_two_pow_ne_zero_iff (x j : Nat) : (x &&& 1 <<< j ≠ 0) ↔ x.testBit j := by
  rw [Nat.one_shiftLeft]
  constructor
  · intro h
    by_contra hbit
    apply h
    apply Nat.eq_of_testBit_eq
    intro i
    rw [Nat.testBit_and, Nat.zero_testBit]
    by_cases hij : i = j
    · subst hij
      simp [Bool.eq_false_iff.mpr hbit]
    · rw [Nat.testBit_two_pow, decide_eq_false (fun hji => hij (Eq.symm hji))]
      simp
  · intro h hz
    have hb : (x &&& 2 ^ j).testBit j = false := by rw [hz]; exact Nat.zero_testBit j
    rw [Nat.testBit_and, h, Nat.testBit_two_pow_self] at hb
    simp at hb

/-- Setting a bit makes `getBit` true at that bit (in-range case). -/
theorem getBit_setBit_self {f : Filter} (h : f.wf) {bit : Nat} (hb : bit < f.bits) :
    (f.setBit bit).getBit bit = true := by
  obtain ⟨hlen, _⟩ := h
  have hidx : bit / 8 < f.buf.length := by omega
  simp only [Filter.setBit, Filter.getBit]
  rw [decide_eq_true_eq, getD_set_self _ _ hidx, and_two_pow_ne_zero_iff]
  rw [Nat.testBit_or, Nat.one_shiftLeft, Nat.testBit_two_pow_self]
  simp

/-- `setBit` never clears a bit. -/
theorem getBit_setBit_mono {f : Filter} {bit : Nat} (h : f.getBit bit = true) (b2 : Nat) :
    (f.setBit b2).getBit bit = true := by
  simp only [Filter.setBit, Filter.getBit, decide_eq_true_eq] at h ⊢
  by_cases hsame : b2 / 8 = bit / 8
  · rw [hsame]
    by_cases hin : bit / 8 < f.buf.length
    · rw [getD_set_self _ _ hin, ← hsame]
      rw [and_two_pow_ne_zero_iff] at h ⊢
      rw [hsame, Nat.testBit_or, h]
      simp
    · rw [List.set_eq_of_length_le (by omega)]
      exact h
  · rw [getD_set_ne _ _ hsame]
    exact h

theorem add_k (f : Filter) (key : List Nat) : (f.add key).k = f.k := by
  simp only [Filter.add]
  generalize List.range f.k = l
  induction l generalizing f with
  | nil => rfl
  | cons x xs ih => simpa [List.foldl_cons] using ih (f.setBit _)

theorem add_bits (f : Filter) (key : List Nat) : (f.add key).bits = f.bits := by
  simp only [Filter.add]
  generalize List.range f.k = l
  induction l generalizing f with
  | nil => rfl
  | cons x xs ih => simpa [List.foldl_cons, setBit_bits] using ih (f.setBit _)

theorem add_wf {f : Filter} (h : f.wf) (key : List Nat) : (f.add key).wf := by
  simp only [Filter.add]
  generalize List.range f.k = l
  induction l generalizing f with
  | nil => exact h
  | cons x xs ih => simpa [List.foldl_cons] using ih (setBit_wf h _)

/-- `add` never clears a bit. -/
theorem getBit_add_mono {f : Filter} {bit : Nat} (h : f.getBit bit = true) (key : List Nat) :
    (f.add key).getBit bit = true := by
  simp only [Filter.add]
  generalize List.range f.k = l
  induction l generalizing f with
  | nil => exact h
  | cons x xs ih => simpa [List.foldl_cons] using ih (getBit_setBit_mono h _)

/-- After `add key`, every probe bit of `key` is set. -/
theorem getBit_add_self {f : Filter} (h : f.wf) (key : List Nat) {i : Nat} (hik : i < f.k) :
    (f.add key).getBit (probeBit (hash2 key).1 (hash2 key).2 i f.bits) = true := by
  simp only [Filter.add]
  have mono : ∀ (l2 : List Nat) (g2 : Filter),
      g2.getBit (probeBit (hash2 key).1 (hash2 key).2 i f.bits) = true →
      (l2.foldl (fun g j => g.setBit (probeBit (hash2 key).1 (hash2 key).2 j g.bits))
        g2).getBit (probeBit (hash2 key).1 (hash2 key).2 i f.bits) = true := by
    intro l2
    induction l2 with
    | nil => intro g2 hg2; exact hg2
    | cons y ys ih2 =>
      intro g2 hg2
      exact ih2 _ (getBit_setBit_mono hg2 _)
  have main : ∀ (l : List Nat) (g : Filter), g.wf → g.bits = f.bits → i ∈ l →
      (l.foldl (fun g j => g.setBit (probeBit (hash2 key).1 (hash2 key).2 j g.bits)) g).getBit
        (probeBit (hash2 key).1 (hash2 key).2 i f.bits) = true := by
    intro l
    induction l with
    | nil => intro g _ _ hm; cases hm
    | cons x xs ih =>
      intro g hg hbits hm
      rcases List.mem_cons.mp hm with hx | hxs
      · subst hx
        simp only [List.foldl_cons]
        apply mono
        rw [← hbits]
        exact getBit_setBit_self hg (Nat.mod_lt _ hg.2)
      · simp only [List.foldl_cons]
        exact ih _ (setBit_wf hg _) (by rw [setBit_bits]; exact hbits) hxs
  exact main (List.range f.k) f h rfl (List.mem_range.mpr hik)

/-- No false negative immediately after `add`. -/
theorem maybeContains_add_self {f : Filter} (h : f.wf) (key : List Nat) :
    (f.add key).maybeContains key = true := by
  simp only [Filter.maybeContains, List.all_eq_true]
  intro i hi
  rw [List.mem_range, add_k] at hi
  rw [add_bits]
  exact getBit_add_self h key hi

/-- `maybeContains` is stable under further `add`s. -/
theorem maybeContains_add_mono {f : Filter} {key : List Nat}
    (h : f.maybeContains key = true) (k2 : List Nat) :
    (f.add k2).maybeContains key = true := by
  simp only [Filter.maybeContains, List.all_eq_true] at h ⊢
  intro i hi
  rw [add_k] at hi
  rw [add_bits]
  exact getBit_add_mono (h i hi) k2

/-- Fold `add` over a list of keys. -/
def addAll (f : Filter) (keys : List (List Nat)) : Filter :=
  keys.foldl Filter.add f

theorem addAll_wf {f : Filter} (h : f.wf) (keys : List (List Nat)) : (addAll f keys).wf := by
  induction keys generalizing f with
  | nil => exact h
  | cons x xs ih => exact ih (add_wf h x)

theorem maybeContains_addAll {f : Filter} (h : f.wf) {key : List Nat}
    {keys : List (List Nat)} (hmem : key ∈ keys) :
    (addAll f keys).maybeContains key = true := by
  induction keys generalizing f with
  | nil => cases hmem
  | cons x xs ih =>
    rcases List.mem_cons.mp hmem with hx | hxs
    · subst hx
      have hself := maybeContains_add_self h key
      clear hmem
      -- the rest of the fold only adds
      unfold addAll
      simp only [List.foldl_cons]
      have : ∀ (l : List (List Nat)) (g : Filter), g.maybeContains key = true →
          (addAll g l).maybeContains key = true := by
        intro l
        induction l with
        | nil => intro g hg; exact hg
        | cons y ys ih2 =>
          intro g hg
          exact ih2 _ (maybeContains_add_mono hg y)
      exact this xs _ hself
    · unfold addAll
      simp only [List.foldl_cons]
      exact ih (add_wf h x) hxs

/-! ### Records and memtable (`memtable/record.go`, `memtable/memtable.go`) -/

/-- `memtable.Record`. -/
structure Record where
  key : List Nat
  value : List Nat
  tombstone : Bool
  seq : Nat
deriving DecidableEq, Inhabited

/-- `cloneBytes` makes a defensive copy; in a pure model a copy is the value. -/
def cloneBytes (b : List Nat) : List Nat := b

/-- The Go map `map[string]Record` is modelled as an association list keyed by
the raw key bytes, with map semantics (at most one binding per key). -/
def mtLookup : List (List Nat × Record) → List Nat → Option Record
  | [], _ => none
  | (k, r) :: rest, key => if k = key then some r else mtLookup rest key

def mtStore : List (List Nat × Record) → List Nat → Record → List (List Nat × Record)
  | [], key, r => [(key, r)]
  | (k, r0) :: rest, key, r =>
    if k = key then (k, r) :: rest else (k, r0) :: mtStore rest key r

structure Memtable where
  byKey : List (List Nat × Record)
deriving DecidableEq

/-- `memtable.New`. -/
def memNew : Memtable := ⟨[]⟩

/-- `Memtable.Apply`: store if no current record or incoming seq is not older. -/
def Memtable.apply (m : Memtable) (r : Record) : Memtable :=
  match mtLookup m.byKey r.key with
  | none =>
    ⟨mtStore m.byKey r.key
      ⟨cloneBytes r.key, cloneBytes r.value, r.tombstone, r.seq⟩⟩
  | some curr =>
    if curr.seq ≤ r.seq then
      ⟨mtStore m.byKey r.key
        ⟨cloneBytes r.key, cloneBytes r.value, r.tombstone, r.seq⟩⟩
    else m

/-- `Memtable.Get` (the source also copies the returned buffers). -/
def Memtable.get (m : Memtable) (key : List Nat) : Option Record :=
  mtLookup m.byKey key

/-- Inner loop of `sortBytesSlices`: bring the minimum of `h :: ys` to the
front by pairwise exchange, exactly as the Go nested loop does for row `i`. -/
def passMin : List Nat → List (List Nat) → List Nat × List (List Nat)
  | h, [] => (h, [])
  | h, y :: ys =>
    if bytesLt y h then
      let p := passMin y ys
      (p.1, h :: p.2)
    else
      let p := passMin h ys
      (p.1, y :: p.2)

/-- Outer loop of `sortBytesSlices` (fuel = number of rows). -/
def sortGo : Nat → List (List Nat) → List (List Nat)
  | 0, l => l
  | _ + 1, [] => []
  | fuel + 1, x :: xs =>
    let p := passMin x xs
    p.1 :: sortGo fuel p.2

/-- `memtable.sortBytesSlices` (in-place exchange sort). -/
def sortBytesSlices (keys : List (List Nat)) : List (List Nat) :=
  sortGo keys.length keys

/-- `Memtable.KeysSorted`. -/
def Memtable.keysSorted (m : Memtable) : List (List Nat) :=
  sortBytesSlices (m.byKey.map (fun p => cloneBytes p.2.key))

/-- Invariant of every reachable memtable: one binding per key, and each
stored record's key equals its map key. -/
def Memtable.wf (m : Memtable) : Prop :=
  (m.byKey.map Prod.fst).Nodup ∧ ∀ p ∈ m.byKey, p.2.key = p.1

instance (m : Memtable) : Decidable m.wf := by
  unfold Memtable.wf
  infer_instance

theorem mtLookup_mtStore_self (l : List (List Nat × Record)) (key : List Nat) (r : Record) :
    mtLookup (mtStore l key r) key = some r := by
  induction l with
  | nil => simp [mtStore, mtLookup]
  | cons p rest ih =>
    obtain ⟨k, r0⟩ := p
    by_cases h : k = key
    · simp [mtStore, mtLookup, h]
    · simp [mtStore, mtLookup, h, ih]

theorem mtLookup_mtStore_ne (l : List (List Nat × Record)) {key k2 : List Nat} (r : Record)
    (h : k2 ≠ key) : mtLookup (mtStore l key r) k2 = mtLookup l k2 := by
  induction l with
  | nil => simp [mtStore, mtLookup, Ne.symm h]
  | cons p rest ih =>
    obtain ⟨k, r0⟩ := p
    by_cases hk : k = key
    · subst hk
      simp [mtStore, mtLookup, Ne.symm h]
    · simp only [mtStore, if_neg hk, mtLookup]
      by_cases hk2 : k = k2
      · simp [hk2]
      · simp [hk2, ih]

theorem mtLookup_mem_fst {l : List (List Nat × Record)} {key : List Nat}
    (h : key ∈ l.map Prod.fst) : mtLookup l key ≠ none := by
  induction l with
  | nil => cases h
  | cons q rest ih =>
    obtain ⟨k, r0⟩ := q
    simp only [List.map_cons, List.mem_cons] at h
    by_cases hk : k = key
    · simp [mtLookup, hk]
    · simp only [mtLookup, if_neg hk]
      rcases h with h | h
      · exact absurd h.symm hk
      · exact ih h

theorem mtStore_map_fst (l : List (List Nat × Record)) (key : List Nat) (r : Record) :
    (mtStore l key r).map Prod.fst =
      if mtLookup l key = none then l.map Prod.fst ++ [key] else l.map Prod.fst := by
  induction l with
  | nil => simp [mtStore, mtLookup]
  | cons p rest ih =>
    obtain ⟨k, r0⟩ := p
    by_cases h : k = key
    · simp [mtStore, mtLookup, h]
    · simp only [mtStore, mtLookup, if_neg h, List.map_cons]
      rw [ih]
      by_cases h2 : mtLookup rest key = none <;> simp [h2]

theorem mtStore_mem (l : List (List Nat × Record)) (key : List Nat) (r : Record)
    {p : List Nat × Record} (hp : p ∈ mtStore l key r) : p ∈ l ∨ p = (key, r) := by
  induction l with
  | nil =>
    simp [mtStore] at hp
    exact Or.inr hp
  | cons q rest ih =>
    obtain ⟨k, r0⟩ := q
    by_cases h : k = key
    · simp only [mtStore, if_pos h] at hp
      rcases List.mem_cons.mp hp with h1 | h1
      · subst h
        exact Or.inr h1
      · exact Or.inl (List.mem_cons_of_mem _ h1)
    · simp only [mtStore, if_neg h] at hp
      rcases List.mem_cons.mp hp with h1 | h1
      · exact Or.inl (h1 ▸ List.mem_cons_self _ _)
      · rcases ih h1 with h2 | h2
        · exact Or.inl (List.mem_cons_of_mem _ h2)
        · exact Or.inr h2

theorem memNew_wf : memNew.wf := by
  constructor <;> simp [memNew]

theorem apply_wf {m : Memtable} (h : m.wf) (r : Record) : (m.apply r).wf := by
  obtain ⟨h1, h2⟩ := h
  have store_wf : ∀ rec : Record, rec.key = r.key →
      (Memtable.mk (mtStore m.byKey r.key rec)).wf := by
    intro rec hrk
    constructor
    · rw [mtStore_map_fst]
      by_cases hl : mtLookup m.byKey r.key = none
      · rw [if_pos hl]
        rw [List.nodup_append]
        refine ⟨h1, List.nodup_singleton _, ?_⟩
        intro a ha hb
        simp only [List.mem_singleton] at hb
        subst hb
        exact mtLookup_mem_fst ha hl
      · rw [if_neg hl]
        exact h1
    · intro p hp
      rcases mtStore_mem _ _ _ hp with hin | heq
      · exact h2 p hin
      · subst heq
        exact hrk
  unfold Memtable.apply
  cases hl : mtLookup m.byKey r.key with
  | none => exact store_wf _ rfl
  | some curr =>
    by_cases hs : curr.seq ≤ r.seq
    · simp only [if_pos hs]
      exact store_wf _ rfl
    · simp only [if_neg hs]
      exact ⟨h1, h2⟩

/-- `Apply` semantics, new-or-newer case: the record is stored. -/
theorem apply_get_self_store {m : Memtable} {r : Record}
    (h : m.get r.key = none ∨ ∃ c, m.get r.key = some c ∧ c.seq ≤ r.seq) :
    (m.apply r).get r.key = some r := by
  unfold Memtable.get at *
  cases hl : mtLookup m.byKey r.key with
  | none =>
    simp only [Memtable.apply, hl]
    exact mtLookup_mtStore_self m.byKey r.key _
  | some curr =>
    rcases h with h | ⟨c, hc, hle⟩
    · rw [hl] at h; cases h
    · rw [hl] at hc
      injection hc with hc
      subst hc
      simp only [Memtable.apply, hl, if_pos hle]
      exact mtLookup_mtStore_self m.byKey r.key _

/-- `Apply` semantics, stale case: the memtable is unchanged. -/
theorem apply_stale {m : Memtable} {r c : Record}
    (hc : m.get r.key = some c) (hlt : r.seq < c.seq) : m.apply r = m := by
  unfold Memtable.get at hc
  simp only [Memtable.apply, hc, if_neg (by omega : ¬ c.seq ≤ r.seq)]

/-- `Apply` does not touch other keys. -/
theorem apply_get_ne {m : Memtable} {r : Record} {k : List Nat} (h : k ≠ r.key) :
    (m.apply r).get k = m.get k := by
  unfold Memtable.get
  cases hl : mtLookup m.byKey r.key with
  | none =>
    simp only [Memtable.apply, hl]
    exact mtLookup_mtStore_ne _ _ h
  | some curr =>
    by_cases hs : curr.seq ≤ r.seq
    · simp only [Memtable.apply, hl, if_pos hs]
      exact mtLookup_mtStore_ne _ _ h
    · simp only [Memtable.apply, hl, if_neg hs]

/-! Exchange-sort correctness. -/

theorem passMin_perm (h : List Nat) (ys : List (List Nat)) :
    (passMin h ys).1 :: (passMin h ys).2 ~ h :: ys := by
  induction ys generalizing h with
  | nil => simp [passMin]
  | cons y ys ih =>
    by_cases hlt : bytesLt y h
    · simp only [passMin, if_pos hlt]
      calc (passMin y ys).1 :: h :: (passMin y ys).2
          ~ h :: (passMin y ys).1 :: (passMin y ys).2 := List.Perm.swap _ _ _
        _ ~ h :: y :: ys := (ih y).cons h
    · simp only [passMin, if_neg hlt]
      calc (passMin h ys).1 :: y :: (passMin h ys).2
          ~ y :: (passMin h ys).1 :: (passMin h ys).2 := List.Perm.swap _ _ _
        _ ~ y :: h :: ys := (ih h).cons y
        _ ~ h :: y :: ys := List.Perm.swap _ _ _

theorem passMin_min (h : List Nat) (ys : List (List Nat)) :
    ∀ x ∈ h :: ys, bytesLe (passMin h ys).1 x := by
  induction ys generalizing h with
  | nil =>
    intro x hx
    simp only [passMin]
    rcases List.mem_cons.mp hx with h1 | h1
    · rw [h1]; exact bytesLe_refl h
    · cases h1
  | cons y ys ih =>
    intro x hx
    by_cases hlt : bytesLt y h
    · simp only [passMin, if_pos hlt]
      rcases List.mem_cons.mp hx with h1 | h1
      · rw [h1]
        exact bytesLe_trans (ih y y (List.mem_cons_self _ _)) (bytesLe_of_lt hlt)
      · exact ih y x h1
    · simp only [passMin, if_neg hlt]
      rcases List.mem_cons.mp hx with h1 | h1
      · rw [h1]
        exact ih h h (List.mem_cons_self _ _)
      · rcases List.mem_cons.mp h1 with h2 | h2
        · rw [h2]
          exact bytesLe_trans (ih h h (List.mem_cons_self _ _)) (bytesLe_of_not_lt hlt)
        · exact ih h x (List.mem_cons_of_mem _ h2)

theorem passMin_length (h : List Nat) (ys : List (List Nat)) :
    (passMin h ys).2.length = ys.length := by
  have := (passMin_perm h ys).length_eq
  simpa using this

theorem sortGo_perm_sorted :
    ∀ (fuel : Nat) (l : List (List Nat)), l.length ≤ fuel →
      sortGo fuel l ~ l ∧ (sortGo fuel l).Pairwise (fun a b => bytesLe a b) := by
  intro fuel
  induction fuel with
  | zero =>
    intro l hl
    have : l = [] := List.eq_nil_of_length_eq_zero (Nat.le_zero.mp hl)
    subst this
    exact ⟨List.Perm.refl _, List.Pairwise.nil⟩
  | succ fuel ih =>
    intro l hl
    cases l with
    | nil => exact ⟨List.Perm.refl _, List.Pairwise.nil⟩
    | cons x xs =>
      simp only [sortGo]
      have hlen : (passMin x xs).2.length ≤ fuel := by
        rw [passMin_length]
        simpa using hl
      obtain ⟨hperm, hsorted⟩ := ih _ hlen
      constructor
      · calc (passMin x xs).1 :: sortGo fuel (passMin x xs).2
            ~ (passMin x xs).1 :: (passMin x xs).2 := hperm.cons _
          _ ~ x :: xs := passMin_perm x xs
      · refine List.Pairwise.cons ?_ hsorted
        intro b hb
        have hb2 : b ∈ (passMin x xs).2 := hperm.mem_iff.mp hb
        have : b ∈ x :: xs := (passMin_perm x xs).mem_iff.mp (List.mem_cons_of_mem _ hb2)
        exact passMin_min x xs b this

theorem sortBytesSlices_perm (l : List (List Nat)) : sortBytesSlices l ~ l :=
  (sortGo_perm_sorted l.length l le_rfl).1

theorem sortBytesSlices_sorted (l : List (List Nat)) :
    (sortBytesSlices l).Pairwise (fun a b => bytesLe a b) :=
  (sortGo_perm_sorted l.length l le_rfl).2

/-- On distinct keys the sort is strictly increasing. -/
theorem sortBytesSlices_strict {l : List (List Nat)} (h : l.Nodup) :
    (sortBytesSlices l).Pairwise (fun a b => bytesLt a b) := by
  have hperm := sortBytesSlices_perm l
  have hnd : (sortBytesSlices l).Nodup := hperm.nodup_iff.mpr h
  have hle := sortBytesSlices_sorted l
  have := List.Pairwise.and hle hnd
  exact this.imp (fun hab => bytesLt_of_le_of_ne hab.1 hab.2)

/-- `KeysSorted` on a well-formed memtable is strictly sorted. -/
theorem keysSorted_strict {m : Memtable} (h : m.wf) :
    m.keysSorted.Pairwise (fun a b => bytesLt a b) := by
  obtain ⟨h1, h2⟩ := h
  unfold Memtable.keysSorted
  apply sortBytesSlices_strict
  have : (m.byKey.map fun p => cloneBytes p.2.key) = m.byKey.map Prod.fst := by
    apply List.map_congr_left
    intro p hp
    simpa [cloneBytes] using h2 p hp
  rw [this]
  exact h1

/-- Every key listed by `KeysSorted` is present in the memtable. -/
theorem keysSorted_mem {m : Memtable} (h : m.wf) {k : List Nat}
    (hk : k ∈ m.keysSorted) : m.get k ≠ none := by
  obtain ⟨h1, h2⟩ := h
  unfold Memtable.keysSorted at hk
  have hk2 := (sortBytesSlices_perm _).mem_iff.mp hk
  simp only [List.mem_map] at hk2
  obtain ⟨p, hp, hpk⟩ := hk2
  have hkey : p.1 = k := by
    rw [← hpk]
    simpa [cloneBytes] using (h2 p hp).symm
  unfold Memtable.get
  apply mtLookup_mem_fst
  rw [← hkey]
  exact List.mem_map_of_mem Prod.fst hp

/-! ### Write-ahead log (`wal/wal.go`) -/

/-- `wal.Record`: `Op` is the raw `uint8` (1 = put, 2 = delete). -/
structure WRecord where
  op : Nat
  seq : Nat
  key : List Nat
  value : List Nat
deriving DecidableEq, Inhabited

inductive WErr where
  | corrupt
  | fuel
deriving DecidableEq

/-- The body of a WAL frame: `[u8 op][u64 seq][u32 keyLen][u32 valLen][key][value]`,
with every fixed-width field truncated as its Go integer type. -/
def framePayload (r : WRecord) : List Nat :=
  [r.op % 256] ++ le64 (r.seq % 2 ^ 64) ++ le32 (r.key.length % 2 ^ 32) ++
    le32 (r.value.length % 2 ^ 32) ++ r.key ++ r.value

/-- The frame written by `WAL.Append`: `[u32 recordLen]` followed by the body;
`recordLen` counts everything after itself. -/
def frameBytes (r : WRecord) : List Nat :=
  le32 ((1 + 8 + 4 + 4 + r.key.length % 2 ^ 32 + r.value.length % 2 ^ 32) % 2 ^ 32) ++
    framePayload r

/-- The WAL file after appending `rs` to a fresh WAL
(`Append` flushes the buffered writer on every call). -/
def walBytes (rs : List WRecord) : List Nat :=
  (rs.map frameBytes).flatten

/-- `wal.decodeRecord`. -/
def decodeRecord (b : List Nat) : Except WErr WRecord :=
  if b.length < 1 + 8 + 4 + 4 then .error .corrupt
  else
    let op := b.getD 0 0
    let seq := de64 (b.drop 1)
    let keyLen := de32 (b.drop 9)
    let valLen := de32 (b.drop 13)
    let need := 1 + 8 + 4 + 4 + keyLen + valLen
    if b.length ≠ need then .error .corrupt
    else
      let key := (b.drop 17).take keyLen
      let val := (b.drop (17 + keyLen)).take valLen
      if op ≠ 1 ∧ op ≠ 2 then .error .corrupt
      else .ok ⟨op, seq, key, val⟩

/-- One step of `Replay`'s read loop; `acc` is the sequence of records passed
to the callback so far, `maxSeq` the running maximum.  The `.fuel` outcome is
a modelling artefact and is unreachable with the fuel bounds used below. -/
def replayGo : Nat → List Nat → List WRecord → Nat → Except WErr (List WRecord × Nat)
  | 0, _, _, _ => .error .fuel
  | fuel + 1, bytes, acc, maxSeq =>
    if bytes.length < 4 then .ok (acc, maxSeq)
    else
      let recLen := de32 bytes
      if recLen = 0 then .error .corrupt
      else
        let rest := bytes.drop 4
        if rest.length < recLen then .ok (acc, maxSeq)
        else
          match decodeRecord (rest.take recLen) with
          | .error e => .error e
          | .ok rr =>
            replayGo fuel (rest.drop recLen) (acc ++ [rr])
              (if maxSeq < rr.seq then rr.seq else maxSeq)

/-- One-step unfolding of `replayGo` with positive fuel. -/
theorem replayGo_succ (fuel : Nat) (bytes : List Nat) (acc : List WRecord) (m : Nat) :
    replayGo (fuel + 1) bytes acc m =
      (if bytes.length < 4 then .ok (acc, m)
      else if de32 bytes = 0 then .error .corrupt
      else if (bytes.drop 4).length < de32 bytes then .ok (acc, m)
      else match decodeRecord ((bytes.drop 4).take (de32 bytes)) with
        | .error e => .error e
        | .ok rr => replayGo fuel ((bytes.drop 4).drop (de32 bytes)) (acc ++ [rr])
            (if m < rr.seq then rr.seq else m)) := rfl

def replayGoFueled (fuel : Nat) (bytes : List Nat) : Except WErr (List WRecord × Nat) :=
  replayGo fuel bytes [] 0

/-- `wal.Replay` on a file's bytes (`none` models an absent file, which
yields no records and max seq 0). -/
def walReplay : Option (List Nat) → Except WErr (List WRecord × Nat)
  | none => .ok ([], 0)
  | some bytes => replayGo (bytes.length + 1) bytes [] 0

/-- Well-formed WAL record: valid op byte, seq fits `uint64`, frame length
fits `uint32` without truncation. -/
def WRecord.wf (r : WRecord) : Prop :=
  (r.op = 1 ∨ r.op = 2) ∧ r.seq < 2 ^ 64 ∧ 17 + r.key.length + r.value.length < 2 ^ 32

instance (r : WRecord) : Decidable r.wf := by
  unfold WRecord.wf
  infer_instance

/-- Running maximum of the replayed sequence numbers, as `Replay` computes it. -/
def maxSeqList (rs : List WRecord) : Nat :=
  rs.foldl (fun a r => if a < r.seq then r.seq else a) 0

theorem framePayload_length (r : WRecord) :
    (framePayload r).length = 17 + r.key.length + r.value.length := by
  simp [framePayload, le32, le64]
  omega

theorem frameBytes_length (r : WRecord) :
    (frameBytes r).length = 21 + r.key.length + r.value.length := by
  simp [frameBytes, le32, framePayload, le64]
  omega

theorem decode_framePayload {r : WRecord} (h : r.wf) :
    decodeRecord (framePayload r) = .ok r := by
  obtain ⟨hop, hseq, hlen⟩ := h
  have hk32 : r.key.length % 2 ^ 32 = r.key.length := Nat.mod_eq_of_lt (by omega)
  have hv32 : r.value.length % 2 ^ 32 = r.value.length := Nat.mod_eq_of_lt (by omega)
  have hop256 : r.op % 256 = r.op := Nat.mod_eq_of_lt (by omega)
  have hseq64 : r.seq % 2 ^ 64 = r.seq := Nat.mod_eq_of_lt hseq
  have hplen := framePayload_length r
  unfold decodeRecord
  rw [if_neg (by omega)]
  have hdrop1 : (framePayload r).drop 1 =
      le64 (r.seq % 2 ^ 64) ++ (le32 (r.key.length % 2 ^ 32) ++
        (le32 (r.value.length % 2 ^ 32) ++ (r.key ++ r.value))) := by
    simp [framePayload]
  have hdrop9 : (framePayload r).drop 9 =
      le32 (r.key.length % 2 ^ 32) ++ (le32 (r.value.length % 2 ^ 32) ++ (r.key ++ r.value)) := by
    simp [framePayload, le64]
  have hdrop13 : (framePayload r).drop 13 =
      le32 (r.value.length % 2 ^ 32) ++ (r.key ++ r.value) := by
    simp [framePayload, le64, le32]
  have hdrop17 : (framePayload r).drop 17 = r.key ++ r.value := by
    simp [framePayload, le64, le32]
  have hgetD : (framePayload r).getD 0 0 = r.op % 256 := by
    simp [framePayload]
  have hseqv : de64 ((framePayload r).drop 1) = r.seq := by
    rw [hdrop1, de64_append _ _ (le64_length _), de64_le64 _ (by omega), hseq64]
  have hkv : de32 ((framePayload r).drop 9) = r.key.length := by
    rw [hdrop9, de32_append _ _ (le32_length _), de32_le32 _ (by omega), hk32]
  have hvv : de32 ((framePayload r).drop 13) = r.value.length := by
    rw [hdrop13, de32_append _ _ (le32_length _), de32_le32 _ (by omega), hv32]
  rw [hgetD, hseqv, hkv, hvv, hop256]
  rw [if_neg (by omega)]
  rw [if_neg (by omega)]
  have hkey : ((framePayload r).drop 17).take r.key.length = r.key := by
    rw [hdrop17]
    exact List.take_left r.key r.value
  have hval : ((framePayload r).drop (17 + r.key.length)).take r.value.length = r.value := by
    rw [← List.drop_drop, hdrop17, List.drop_left, List.take_of_length_le le_rfl]
  rw [hkey, hval]

/-- `replayGo` consumes one well-formed frame per step. -/
theorem replayGo_frame (fuel : Nat) {r : WRecord} (h : r.wf) (X : List Nat)
    (acc : List WRecord) (m : Nat) :
    replayGo (fuel + 1) (frameBytes r ++ X) acc m =
      replayGo fuel X (acc ++ [r]) (if m < r.seq then r.seq else m) := by
  obtain ⟨hop, hseq, hlen⟩ := h
  have hk32 : r.key.length % 2 ^ 32 = r.key.length := Nat.mod_eq_of_lt (by omega)
  have hv32 : r.value.length % 2 ^ 32 = r.value.length := Nat.mod_eq_of_lt (by omega)
  have hrl32 : (1 + 8 + 4 + 4 + r.key.length % 2 ^ 32 + r.value.length % 2 ^ 32) % 2 ^ 32 =
      17 + r.key.length + r.value.length := by
    rw [hk32, hv32]
    exact Nat.mod_eq_of_lt (by omega)
  have hframe : frameBytes r ++ X =
      le32 ((1 + 8 + 4 + 4 + r.key.length % 2 ^ 32 + r.value.length % 2 ^ 32) % 2 ^ 32) ++
        (framePayload r ++ X) := by
    simp [frameBytes]
  have hplen := framePayload_length r
  have hflen := frameBytes_length r
  rw [replayGo_succ]
  rw [if_neg (by simp only [List.length_append]; omega)]
  have hde : de32 (frameBytes r ++ X) = 17 + r.key.length + r.value.length := by
    rw [hframe, de32_append _ _ (le32_length _), de32_le32 _ (by omega), hrl32]
  rw [hde]
  rw [if_neg (by omega)]
  have hdrop4 : (frameBytes r ++ X).drop 4 = framePayload r ++ X := by
    rw [hframe]
    have := List.drop_left
      (le32 ((1 + 8 + 4 + 4 + r.key.length % 2 ^ 32 + r.value.length % 2 ^ 32) % 2 ^ 32))
      (framePayload r ++ X)
    rw [le32_length] at this
    exact this
  rw [hdrop4]
  rw [if_neg (by simp only [List.length_append]; omega)]
  have htake : (framePayload r ++ X).take (17 + r.key.length + r.value.length) =
      framePayload r := by
    rw [← hplen]
    exact List.take_left _ _
  have hdroprl : (framePayload r ++ X).drop (17 + r.key.length + r.value.length) = X := by
    rw [← hplen]
    exact List.drop_left _ _
  rw [htake, hdroprl, decode_framePayload ⟨hop, hseq, hlen⟩]

theorem walBytes_nil : walBytes [] = [] := rfl

theorem walBytes_cons (r : WRecord) (rs : List WRecord) :
    walBytes (r :: rs) = frameBytes r ++ walBytes rs := by
  simp [walBytes]

theorem walBytes_length_ge (rs : List WRecord) : rs.length ≤ (walBytes rs).length := by
  induction rs with
  | nil => simp [walBytes]
  | cons r rs ih =>
    rw [walBytes_cons, List.length_append, frameBytes_length]
    simp only [List.length_cons]
    omega

/-- `replayGo` over a complete WAL yields all records in order. -/
theorem replayGo_walBytes {rs : List WRecord} (h : ∀ r ∈ rs, r.wf) :
    ∀ (fuel : Nat) (acc : List WRecord) (m : Nat), rs.length < fuel →
      replayGo fuel (walBytes rs) acc m =
        .ok (acc ++ rs, rs.foldl (fun a r => if a < r.seq then r.seq else a) m) := by
  induction rs with
  | nil =>
    intro fuel acc m hf
    cases fuel with
    | zero => omega
    | succ g =>
      simp [replayGo, walBytes]
  | cons r rs ih =>
    intro fuel acc m hf
    cases fuel with
    | zero => omega
    | succ g =>
      rw [walBytes_cons, replayGo_frame g (h r (List.mem_cons_self _ _)) _ acc m]
      rw [ih (fun x hx => h x (List.mem_cons_of_mem _ hx)) g _ _ (by simpa using hf)]
      simp

/-- `replayGo` on a truncated WAL yields a prefix and no error. -/
theorem replayGo_truncated {rs : List WRecord} (h : ∀ r ∈ rs, r.wf) :
    ∀ (n : Nat) (fuel : Nat) (acc : List WRecord) (m : Nat),
      ((walBytes rs).take n).length < fuel →
      ∃ k, k ≤ rs.length ∧
        replayGo fuel ((walBytes rs).take n) acc m =
          .ok (acc ++ rs.take k, (rs.take k).foldl (fun a r => if a < r.seq then r.seq else a) m) := by
  induction rs with
  | nil =>
    intro n fuel acc m hf
    refine ⟨0, le_rfl, ?_⟩
    cases fuel with
    | zero => omega
    | succ g => simp [replayGo, walBytes]
  | cons r rs ih =>
    intro n fuel acc m hf
    have hwf := h r (List.mem_cons_self _ _)
    obtain ⟨hop, hseq, hlen⟩ := hwf
    have hflen := frameBytes_length r
    have hplen := framePayload_length r
    rw [walBytes_cons] at hf ⊢
    by_cases hn : (frameBytes r).length ≤ n
    · -- the first frame survives whole
      have htake : (frameBytes r ++ walBytes rs).take n =
          frameBytes r ++ (walBytes rs).take (n - (frameBytes r).length) := by
        rw [List.take_append_eq_append_take, List.take_of_length_le hn]
      rw [htake] at hf ⊢
      cases fuel with
      | zero =>
        exfalso
        omega
      | succ g =>
        rw [replayGo_frame g (h r (List.mem_cons_self _ _)) _ acc m]
        have hlt : ((walBytes rs).take (n - (frameBytes r).length)).length < g := by
          rw [List.length_append] at hf
          omega
        obtain ⟨k, hk, heq⟩ := ih (fun x hx => h x (List.mem_cons_of_mem _ hx))
          (n - (frameBytes r).length) g (acc ++ [r]) (if m < r.seq then r.seq else m) hlt
        refine ⟨k + 1, by simpa using hk, ?_⟩
        rw [heq]
        simp
    · -- the first frame is torn: replay stops cleanly with nothing new
      push_neg at hn
      have htake : (frameBytes r ++ walBytes rs).take n = (frameBytes r).take n := by
        rw [List.take_append_eq_append_take]
        have : n - (frameBytes r).length = 0 := by omega
        rw [this]
        simp
      rw [htake] at hf ⊢
      refine ⟨0, by omega, ?_⟩
      cases fuel with
      | zero => omega
      | succ g =>
        unfold replayGo
        by_cases hn4 : n < 4
        · rw [if_pos (by simp; omega)]
          simp
        · rw [if_neg (by simp; omega)]
          push_neg at hn4
          -- the length prefix is complete, the declared record is torn
          have hk32 : r.key.length % 2 ^ 32 = r.key.length := Nat.mod_eq_of_lt (by omega)
          have hv32 : r.value.length % 2 ^ 32 = r.value.length := Nat.mod_eq_of_lt (by omega)
          have hsplit : (frameBytes r).take n =
              le32 ((1 + 8 + 4 + 4 + r.key.length % 2 ^ 32 + r.value.length % 2 ^ 32) % 2 ^ 32) ++
                (framePayload r).take (n - 4) := by
            unfold frameBytes
            rw [List.take_append_eq_append_take, List.take_of_length_le (by rw [le32_length]; omega),
              le32_length]
          have hde : de32 ((frameBytes r).take n) = 17 + r.key.length + r.value.length := by
            rw [hsplit, de32_append _ _ (le32_length _), de32_le32 _ (by omega)]
            rw [hk32, hv32]
            exact Nat.mod_eq_of_lt (by omega)
          rw [hde, if_neg (by omega)]
          have hdrop : ((frameBytes r).take n).drop 4 = (framePayload r).take (n - 4) := by
            rw [hsplit]
            have := List.drop_left (le32 ((1 + 8 + 4 + 4 + r.key.length % 2 ^ 32 +
              r.value.length % 2 ^ 32) % 2 ^ 32)) ((framePayload r).take (n - 4))
            rw [le32_length] at this
            exact this
          rw [hdrop, if_pos, ]
          · simp
          · rw [List.length_take]
            omega

/-- `Replay` of the byte-exact WAL contents yields the appended records and
their maximum sequence number. -/
theorem walReplay_roundtrip {rs : List WRecord} (h : ∀ r ∈ rs, r.wf) :
    walReplay (some (walBytes rs)) = .ok (rs, maxSeqList rs) := by
  unfold walReplay maxSeqList
  have := replayGo_walBytes h ((walBytes rs).length + 1) [] 0
    (by have := walBytes_length_ge rs; omega)
  simpa using this

/-- `Replay` of a truncated WAL yields a prefix, without error. -/
theorem walReplay_truncated {rs : List WRecord} (h : ∀ r ∈ rs, r.wf) (n : Nat) :
    ∃ k, k ≤ rs.length ∧
      walReplay (some ((walBytes rs).take n)) = .ok (rs.take k, maxSeqList (rs.take k)) := by
  unfold walReplay maxSeqList
  exact replayGo_truncated h n _ [] 0 (by omega)

/-! ### Memtable fold lemmas (engine replay / apply sequences) -/

theorem foldl_apply_wf (rs : List Record) (m : Memtable) (h : m.wf) :
    (rs.foldl Memtable.apply m).wf := by
  induction rs generalizing m with
  | nil => exact h
  | cons r rs ih => exact ih _ (apply_wf h r)

/-- After applying a sequence of records to a fresh memtable, `get k` is
`none` exactly when no record for `k` was applied, and otherwise returns a
record applied for `k` whose seq is the largest applied seq for `k`. -/
theorem get_foldl_apply (rs : List Record) (k : List Nat) :
    ((rs.foldl Memtable.apply memNew).get k = none ∧
      rs.filter (fun s => decide (s.key = k)) = []) ∨
    (∃ r, (rs.foldl Memtable.apply memNew).get k = some r ∧
      r ∈ rs.filter (fun s => decide (s.key = k)) ∧
      r.seq = ((rs.filter (fun s => decide (s.key = k))).map Record.seq).foldl Nat.max 0) := by
  induction rs using List.reverseRecOn with
  | nil =>
    left
    constructor
    · simp [memNew, Memtable.get, mtLookup]
    · rfl
  | append_singleton l a ih =>
    rw [List.foldl_append]
    simp only [List.foldl_cons, List.foldl_nil]
    by_cases hk : a.key = k
    · have hrelapp : (l ++ [a]).filter (fun s => decide (s.key = k)) =
          l.filter (fun s => decide (s.key = k)) ++ [a] := by
        simp [List.filter_append, List.filter_cons, hk]
      right
      rw [hrelapp]
      rcases ih with ⟨hnone, hrel⟩ | ⟨r, hget, hmem, hseq⟩
      · -- first record for this key
        refine ⟨a, ?_, ?_, ?_⟩
        · rw [← hk]
          exact apply_get_self_store (Or.inl (hk ▸ hnone))
        · simp
        · rw [hrel]
          simp
      · by_cases hle : r.seq ≤ a.seq
        · refine ⟨a, ?_, ?_, ?_⟩
          · rw [← hk]
            exact apply_get_self_store (Or.inr ⟨r, hk ▸ hget, hle⟩)
          · simp
          · rw [List.map_append, List.foldl_append]
            simp only [List.map_cons, List.map_nil, List.foldl_cons, List.foldl_nil]
            rw [← hseq]
            exact (Nat.max_eq_right hle).symm
        · push_neg at hle
          refine ⟨r, ?_, ?_, ?_⟩
          · rw [apply_stale (hk ▸ hget) hle]
            exact hget
          · exact List.mem_append.mpr (Or.inl hmem)
          · rw [List.map_append, List.foldl_append]
            simp only [List.map_cons, List.map_nil, List.foldl_cons, List.foldl_nil]
            rw [← hseq]
            exact (Nat.max_eq_left (Nat.le_of_lt hle)).symm
    · -- a touches a different key
      have hfa : (l ++ [a]).filter (fun s => decide (s.key = k)) =
          l.filter (fun s => decide (s.key = k)) := by
        simp [List.filter_append, List.filter_cons, hk]
      rw [hfa]
      have hgne := apply_get_ne (m := l.foldl Memtable.apply memNew) (r := a)
        (k := k) (fun he => hk (he.symm))
      rw [hgne]
      exact ih

/-! ### SSTable (`sstable/sstable.go`) -/

def sstMagic : Nat := 0x4c534d31

/-- Error outcomes shared by the sstable, compaction and engine models.
`.fuel` is a modelling artefact, unreachable at the fuel bounds used. -/
inductive DErr where
  | corrupt
  | emptyKey
  | closed
  | fuel
deriving DecidableEq

/-- `bufio.Writer` over an `os.File`: `out` is what reached the file,
`buf` what is still buffered.  `f.Seek(0, io.SeekCurrent)` returns
`out.length`. -/
structure BufWriter where
  out : List Nat
  buf : List Nat
deriving DecidableEq

def bufCap : Nat := 65536

/-- `bufio.Writer.Write`: append to the buffer when it fits; write straight
through when the buffer is empty and the chunk exceeds capacity; otherwise
fill the buffer, flush it whole, and continue. -/
def bwWrite : Nat → BufWriter → List Nat → BufWriter
  | 0, w, _ => w
  | fuel + 1, w, p =>
    if p.length ≤ bufCap - w.buf.length then { w with buf := w.buf ++ p }
    else if w.buf.length = 0 then { w with out := w.out ++ p }
    else
      let avail := bufCap - w.buf.length
      bwWrite fuel ⟨w.out ++ (w.buf ++ p.take avail), []⟩ (p.drop avail)

def bwWriteF (w : BufWriter) (p : List Nat) : BufWriter :=
  bwWrite (p.length + 2) w p

def bwFlush (w : BufWriter) : BufWriter :=
  ⟨w.out ++ w.buf, []⟩

/-- The bytes of one data record:
`[u32 keyLen][key][u8 tombstone][u32 valLen][value][u64 seq]`. -/
def entryBytes (r : Record) : List Nat :=
  le32 (r.key.length % 2 ^ 32) ++ r.key ++ [if r.tombstone then 1 else 0] ++
    le32 (r.value.length % 2 ^ 32) ++ r.value ++ le64 (r.seq % 2 ^ 64)

/-- `sstable.writeEntry` through the buffered writer (six separate writes). -/
def writeEntryW (w : BufWriter) (r : Record) : BufWriter :=
  let w1 := bwWriteF w (le32 (r.key.length % 2 ^ 32))
  let w2 := bwWriteF w1 r.key
  let w3 := bwWriteF w2 [if r.tombstone then 1 else 0]
  let w4 := bwWriteF w3 (le32 (r.value.length % 2 ^ 32))
  let w5 := bwWriteF w4 r.value
  bwWriteF w5 (le64 (r.seq % 2 ^ 64))

/-- `sstable.writeIndexEntry`. -/
def writeIndexEntryW (w : BufWriter) (e : List Nat × Nat) : BufWriter :=
  let w1 := bwWriteF w (le32 (e.1.length % 2 ^ 32))
  let w2 := bwWriteF w1 e.1
  bwWriteF w2 (le64 (e.2 % 2 ^ 64))

/-- One iteration of `Build`'s data loop: skip keys absent from the memtable,
record a sparse-index entry every `stride` input positions at the current
**flushed** file offset, add the key to the Bloom filter, write the record. -/
def buildStep (mt : Memtable) (stride : Nat)
    (st : BufWriter × List (List Nat × Nat) × Filter) (ik : Nat × List Nat) :
    BufWriter × List (List Nat × Nat) × Filter :=
  match mt.get ik.2 with
  | none => st
  | some r =>
    let off := st.1.out.length
    let idx := if ik.1 % stride = 0 then st.2.1 ++ [(cloneBytes ik.2, off)] else st.2.1
    let bf := st.2.2.add ik.2
    (writeEntryW st.1 r, idx, bf)

/-- `sstable.Build`: data records, Bloom section, sparse index, v2 footer.
Returns the file bytes. -/
def sstBuild (keys : List (List Nat)) (mt : Memtable) (stride0 : Nat) : List Nat :=
  let stride := if stride0 = 0 then 16 else stride0
  let st := keys.enum.foldl (buildStep mt stride) (⟨[], []⟩, [], newForKeys keys.length 10 7)
  let w1 := bwFlush st.1
  let bloomOff := w1.out.length
  let bloomBytes := st.2.2.encode
  let w2 := bwFlush (bwWriteF w1 bloomBytes)
  let idxOff := w2.out.length
  let w3 := st.2.1.foldl writeIndexEntryW w2
  let footer := le64 (idxOff % 2 ^ 64) ++ le64 (bloomOff % 2 ^ 64) ++
    le64 (bloomBytes.length % 2 ^ 64) ++ le32 sstMagic ++ le16 2
  (bwFlush (bwWriteF w3 footer)).out

/-- The records `Build` emits into the data section, in emission order. -/
def buildDataRecs (keys : List (List Nat)) (mt : Memtable) : List Record :=
  keys.filterMap mt.get

/-- An opened SSTable (`sstable.Table`): the file bytes stand in for the path. -/
structure Table where
  bytes : List Nat
  id : Nat
  index : List (List Nat × Nat)
  indexOffset : Nat
  bloomOffset : Nat
  bloomLen : Nat
  bf : Option Filter
deriving DecidableEq

/-- Sparse-index parse loop of `Open` (EOF at an entry boundary ends the
index; a short read inside an entry is corruption). -/
def parseIndexGo : Nat → List Nat → Except DErr (List (List Nat × Nat))
  | 0, _ => .error .fuel
  | fuel + 1, region =>
    if region.length = 0 then .ok []
    else if region.length < 4 then .error .corrupt
    else
      let klen := de32 region
      if klen = 0 then .error .corrupt
      else if region.length < 4 + klen then .error .corrupt
      else
        let k := (region.drop 4).take klen
        if region.length < 4 + klen + 8 then .error .corrupt
        else
          let off := de64 (region.drop (4 + klen))
          match parseIndexGo fuel (region.drop (4 + klen + 8)) with
          | .error e => .error e
          | .ok rest => .ok ((k, off) :: rest)

/-- `sstable.Open`. -/
def openTable (bytes : List Nat) (id : Nat) : Except DErr Table :=
  let size := bytes.length
  if size < 14 then .error .corrupt
  else
    let footer := bytes.drop (size - 14)
    let gotMagic := de32 (footer.drop 8)
    let gotVer := de16 (footer.drop 12)
    if gotMagic ≠ sstMagic then .error .corrupt
    else
      let hdr : Except DErr (Nat × Nat × Nat × Nat) :=
        if gotVer = 1 then .ok (de64 footer, 0, 0, 14)
        else if gotVer = 2 then
          if size < 30 then .error .corrupt
          else
            let v2 := bytes.drop (size - 30)
            let idxOff := de64 v2
            let bloomOff := de64 (v2.drop 8)
            let bloomLen := de64 (v2.drop 16)
            if de32 (v2.drop 24) ≠ sstMagic ∨ de16 (v2.drop 28) ≠ 2 then .error .corrupt
            else .ok (idxOff, bloomOff, bloomLen, 30)
        else .error .corrupt
      match hdr with
      | .error e => .error e
      | .ok (idxOff, bloomOff, bloomLen, footerSize) =>
        if size ≤ idxOff then .error .corrupt
        else
          -- uint64 subtraction wraps; for a malformed footer the limit is huge
          let indexBytesLen := (size + 2 ^ 64 + 2 ^ 64 - footerSize - idxOff) % 2 ^ 64
          let region := (bytes.drop idxOff).take indexBytesLen
          match parseIndexGo (region.length + 1) region with
          | .error e => .error e
          | .ok entries =>
            if bloomLen = 0 then
              .ok ⟨bytes, id, entries, idxOff, bloomOff, bloomLen, none⟩
            else if size ≤ bloomOff ∨ size < bloomOff + bloomLen then .error .corrupt
            else
              match bloomDecode ((bytes.drop bloomOff).take bloomLen) with
              | none => .error .corrupt
              | some f => .ok ⟨bytes, id, entries, idxOff, bloomOff, bloomLen, some f⟩

/-- Binary-search loop of `Table.seekStartOffset`. -/
def bsearchGo : Nat → List (List Nat × Nat) → List Nat → Nat → Nat → Nat
  | 0, _, _, lo, _ => lo
  | fuel + 1, index, key, lo, hi =>
    if lo < hi then
      let mid := (lo + hi) / 2
      if bytesLe (index.getD mid ([], 0)).1 key then bsearchGo fuel index key (mid + 1) hi
      else bsearchGo fuel index key lo mid
    else lo

/-- `Table.seekStartOffset`: largest sparse-index entry with key ≤ target. -/
def seekStartOff (index : List (List Nat × Nat)) (key : List Nat) : Nat :=
  if index.length = 0 then 0
  else
    let lo := bsearchGo (index.length + 1) index key 0 index.length
    if lo = 0 then 0 else (index.getD (lo - 1) ([], 0)).2

/-- Outcome of one `readEntry` call. -/
inductive ReadEntryResult where
  | eof
  | corrupt
  | got (r : Record) (consumed : Nat)
deriving DecidableEq

/-- `readEntry` in terms of the bytes remaining at the reader's logical
position: a clean EOF on the first read ends the scan; any later shortage
is corruption. -/
def readEntryB (b : List Nat) : ReadEntryResult :=
  if b.length = 0 then .eof
  else if b.length < 4 then .corrupt
  else
    let klen := de32 b
    if klen = 0 then .corrupt
    else if b.length < 4 + klen then .corrupt
    else
      let k := (b.drop 4).take klen
      if b.length < 4 + klen + 1 then .corrupt
      else
        let tomb := b.getD (4 + klen) 0
        if b.length < 4 + klen + 1 + 4 then .corrupt
        else
          let vlen := de32 (b.drop (4 + klen + 1))
          if b.length < 4 + klen + 1 + 4 + vlen then .corrupt
          else
            let v := (b.drop (4 + klen + 1 + 4)).take vlen
            if b.length < 4 + klen + 1 + 4 + vlen + 8 then .corrupt
            else
              let seq := de64 (b.drop (4 + klen + 1 + 4 + vlen))
              .got ⟨k, v, tomb = 1, seq⟩ (4 + klen + 1 + 4 + vlen + 8)

/-- Advance of the underlying file offset when a buffered reader must cover
byte position `target`: whole-buffer fills of `bufCap` bytes, capped at the
file size. -/
def fillTo : Nat → Nat → Nat → Nat → Nat
  | 0, _, F, _ => F
  | fuel + 1, target, F, size =>
    if target ≤ F ∨ size ≤ F then F
    else fillTo fuel target (min (F + bufCap) size) size

/-- Scan loop of `Table.Get`: the loop guard compares the **underlying** file
offset `F` (which the buffered reads push ahead of the logical position `L`)
against `indexOffset`. -/
def tableGetScan : Nat → List Nat → Nat → List Nat → Nat → Nat → Except DErr (Option Record)
  | 0, _, _, _, _, _ => .error .fuel
  | fuel + 1, bytes, idxOff, key, L, F =>
    if idxOff ≤ F then .ok none
    else
      match readEntryB (bytes.drop L) with
      | .eof => .ok none
      | .corrupt => .error .corrupt
      | .got rec consumed =>
        let L2 := L + consumed
        let F2 := fillTo (L2 + 1) L2 F bytes.length
        match bytesCmp rec.key key with
        | .eq => .ok (some rec)
        | .gt => .ok none
        | .lt => tableGetScan fuel bytes idxOff key L2 F2

/-- `Table.Get`. -/
def tableGet (t : Table) (key : List Nat) : Except DErr (Option Record) :=
  let startOff := seekStartOff t.index key
  tableGetScan (t.bytes.length + 2) t.bytes t.indexOffset key startOff startOff

/-- `Table.MaybeContains`: absent Bloom filter (v1 footer) means "maybe". -/
def tableMaybeContains (t : Table) (key : List Nat) : Bool :=
  match t.bf with
  | none => true
  | some f => f.maybeContains key

/-! ### Compaction (`compaction/compaction.go`) -/

/-- State of a `tableIter`: its file bytes, data-section bound, logical read
position `L` and underlying file offset `F`. -/
structure IterState where
  bytes : List Nat
  idxOff : Nat
  L : Nat
  F : Nat
deriving DecidableEq, Inhabited

/-- A heap element: an iterator together with its current record. -/
structure CIter where
  st : IterState
  cur : Record
deriving DecidableEq, Inhabited

/-- `compaction.newTableIter`: footer peek (note: any version other than 1
takes the v2 path, and the v2 magic/version fields are not re-checked). -/
def newTableIter (t : Table) : Except DErr IterState :=
  let size := t.bytes.length
  if size < 14 then .error .corrupt
  else
    let footer := t.bytes.drop (size - 14)
    if de32 (footer.drop 8) ≠ sstMagic then .error .corrupt
    else if de16 (footer.drop 12) = 1 then .ok ⟨t.bytes, de64 footer, 0, 0⟩
    else if size < 30 then .error .corrupt
    else .ok ⟨t.bytes, de64 (t.bytes.drop (size - 30)), 0, 0⟩

/-- `tableIter.next`: the loop guard compares the **underlying** offset `F`
against `indexOffset` while records are read through a 64 KiB buffered
reader. -/
def iterNext (st : IterState) : Except DErr (Option (Record × IterState)) :=
  if st.idxOff ≤ st.F then .ok none
  else
    match readEntryB (st.bytes.drop st.L) with
    | .eof => .ok none
    | .corrupt => .error .corrupt
    | .got rec consumed =>
      let L2 := st.L + consumed
      .ok (some (rec, ⟨st.bytes, st.idxOff, L2, fillTo (L2 + 1) L2 st.F st.bytes.length⟩))

/-- `mergeHeap.Less`: compare the iterators' current keys only. -/
def cLess (a b : CIter) : Bool :=
  bytesLt a.cur.key b.cur.key

def swapL (l : List CIter) (i j : Nat) : List CIter :=
  let a := l.getD i default
  let b := l.getD j default
  (l.set i b).set j a

/-- `container/heap.up`. -/
def heapUp : Nat → List CIter → Nat → List CIter
  | 0, h, _ => h
  | fuel + 1, h, j =>
    if j = 0 then h
    else
      let i := (j - 1) / 2
      if ¬ cLess (h.getD j default) (h.getD i default) then h
      else heapUp fuel (swapL h i j) i

/-- `container/heap.down` restricted to the first `n` elements. -/
def heapDownGo : Nat → List CIter → Nat → Nat → List CIter
  | 0, h, _, _ => h
  | fuel + 1, h, i, n =>
    let j1 := 2 * i + 1
    if n ≤ j1 then h
    else
      let j := if j1 + 1 < n ∧ cLess (h.getD (j1 + 1) default) (h.getD j1 default)
        then j1 + 1 else j1
      if ¬ cLess (h.getD j default) (h.getD i default) then h
      else heapDownGo fuel (swapL h i j) j n

/-- `container/heap.Push`. -/
def heapPush (h : List CIter) (x : CIter) : List CIter :=
  heapUp (h.length + 2) (h ++ [x]) h.length

/-- `container/heap.Pop`: swap root and last, sift down over the rest,
remove and return the last slot (the old root). -/
def heapPop (h : List CIter) : CIter × List CIter :=
  let n := h.length - 1
  let h2 := swapL h 0 n
  let h3 := heapDownGo (h.length + 2) h2 0 n
  (h3.getD n default, h3.take n)

/-- Open all input iterators (`Run`'s first loop). -/
def initIters : List Table → Except DErr (List IterState)
  | [] => .ok []
  | t :: ts =>
    match newTableIter t with
    | .error e => .error e
    | .ok st =>
      match initIters ts with
      | .error e => .error e
      | .ok sts => .ok (st :: sts)

/-- Prime the heap with each iterator's first record (`Run`'s second loop),
pushing in input order. -/
def initHeapGo : List IterState → List CIter → Except DErr (List CIter)
  | [], h => .ok h
  | st :: sts, h =>
    match iterNext st with
    | .error e => .error e
    | .ok none => initHeapGo sts h
    | .ok (some (r, st2)) => initHeapGo sts (heapPush h ⟨st2, r⟩)

def initHeap (sts : List IterState) : Except DErr (List CIter) :=
  initHeapGo sts []

/-- `Run`'s merge loop.  `pending` models the Go `have` flag; `curKey` and
`best` carry the current key group and its best record. -/
def mergeLoop : Nat → List CIter → Memtable → List (List Nat) → List Nat → Record → Bool →
    Except DErr (Memtable × List (List Nat))
  | 0, _, _, _, _, _, _ => .error .fuel
  | fuel + 1, h, mt, keys, curKey, best, pending =>
    if h.length = 0 then
      .ok (if pending then (mt.apply best, keys ++ [cloneBytes best.key]) else (mt, keys))
    else
      let p := heapPop h
      let top := p.1
      let h2 := p.2
      let r := top.cur
      if pending ∧ r.key = curKey then
        let best2 := if best.seq < r.seq then r else best
        match iterNext top.st with
        | .error e => .error e
        | .ok none => mergeLoop fuel h2 mt keys curKey best2 true
        | .ok (some q) => mergeLoop fuel (heapPush h2 ⟨q.2, q.1⟩) mt keys curKey best2 true
      else
        let mt2 := if pending then mt.apply best else mt
        let keys2 := if pending then keys ++ [cloneBytes best.key] else keys
        match iterNext top.st with
        | .error e => .error e
        | .ok none => mergeLoop fuel h2 mt2 keys2 (cloneBytes r.key) r true
        | .ok (some q) => mergeLoop fuel (heapPush h2 ⟨q.2, q.1⟩) mt2 keys2 (cloneBytes r.key) r true

def mergeFuel (inputs : List Table) : Nat :=
  inputs.foldl (fun a t => a + t.bytes.length) 0 + inputs.length + 2

/-- `compaction.Run`: k-way merge into a fresh table built by the SSTable
builder, then reopened.  Returns `none` for an empty input set. -/
def compactionRun (inputs : List Table) (outputID : Nat) : Except DErr (Option Table) :=
  if inputs.length = 0 then .ok none
  else
    match initIters inputs with
    | .error e => .error e
    | .ok sts =>
      match initHeap sts with
      | .error e => .error e
      | .ok h =>
        match mergeLoop (mergeFuel inputs) h memNew [] [] default false with
        | .error e => .error e
        | .ok mk =>
          let file := sstBuild mk.2 mk.1 16
          match openTable file outputID with
          | .error e => .error e
          | .ok t => .ok (some t)

/-! ### Engine (`db` package) -/

/-- Engine options; `Dir` and `Verbose` only affect file placement and
logging and have no observable effect on the modelled state. -/
structure Options where
  syncOnWrite : Bool
  memtableMaxBytes : Nat
  maxSSTTables : Nat
deriving DecidableEq

/-- Engine state.  The WAL file is carried as bytes; `sstables` is sorted
by id ascending. -/
structure DB where
  closed : Bool
  mem : Memtable
  seq : Nat
  opts : Options
  wal : List Nat
  memBytes : Nat
  nextSST : Nat
  sstables : List Table
deriving DecidableEq

/-- `db.Open` on a fresh directory: empty WAL (replay yields `maxSeq = 0`,
so the first sequence number is 1), no SSTables (`nextSST = 1`). -/
def dbOpen (opts : Options) : DB :=
  ⟨false, memNew, 1, opts, [], 0, 1, []⟩

def approxRecordBytes (key value : List Nat) : Nat :=
  key.length + value.length + 32

def insertByID (t : Table) : List Table → List Table
  | [] => [t]
  | u :: us => if t.id < u.id then t :: u :: us else u :: insertByID t us

/-- `sort.Slice(d.sstables, by ID ascending)` (IDs are unique in every
reachable state, so any sort agrees). -/
def sortTablesByID (l : List Table) : List Table :=
  l.foldr insertByID []

/-- `DB.compactLocked`. -/
def compactLocked (d : DB) : Option DErr × DB :=
  if d.sstables.length ≤ 1 then (none, d)
  else
    let outID := if d.nextSST = 0 then 1 else d.nextSST
    let d2 := { d with nextSST := outID + 1 }
    match compactionRun d2.sstables outID with
    | .error e => (some e, d2)
    | .ok none => (none, d2)
    | .ok (some tbl) => (none, { d2 with sstables := [tbl] })

/-- `DB.maybeFlushLocked`: rotate the WAL, flush the memtable through the
SSTable builder, reopen the table, then maybe compact. -/
def maybeFlush (d : DB) : Option DErr × DB :=
  if d.opts.memtableMaxBytes = 0 then (none, d)
  else if d.memBytes < d.opts.memtableMaxBytes then (none, d)
  else
    let immutable := d.mem
    let keys := immutable.keysSorted
    let d2 := { d with mem := memNew, memBytes := 0, wal := [] }
    let id := if d2.nextSST = 0 then 1 else d2.nextSST
    let d3 := { d2 with nextSST := id + 1 }
    let file := sstBuild keys immutable 16
    match openTable file id with
    | .error e => (some e, d3)
    | .ok tbl =>
      let d4 := { d3 with sstables := sortTablesByID (d3.sstables ++ [tbl]) }
      if 0 < d4.opts.maxSSTTables ∧ d4.opts.maxSSTTables < d4.sstables.length then
        compactLocked d4
      else (none, d4)

/-- `DB.Put`. -/
def dbPut (d : DB) (key value : List Nat) : Option DErr × DB :=
  if key.length = 0 then (some .emptyKey, d)
  else if d.closed then (some .closed, d)
  else
    let seq := d.seq
    let d1 := { d with
      seq := seq + 1,
      wal := d.wal ++ frameBytes ⟨1, seq, key, value⟩ }
    let d2 := { d1 with mem := d1.mem.apply ⟨key, value, false, seq⟩ }
    let d3 := { d2 with memBytes := d2.memBytes + approxRecordBytes key value }
    maybeFlush d3

/-- `DB.Delete`. -/
def dbDelete (d : DB) (key : List Nat) : Option DErr × DB :=
  if key.length = 0 then (some .emptyKey, d)
  else if d.closed then (some .closed, d)
  else
    let seq := d.seq
    let d1 := { d with
      seq := seq + 1,
      wal := d.wal ++ frameBytes ⟨2, seq, key, []⟩ }
    let d2 := { d1 with mem := d1.mem.apply ⟨key, [], true, seq⟩ }
    let d3 := { d2 with memBytes := d2.memBytes + approxRecordBytes key [] }
    maybeFlush d3

/-- SSTable probe sequence of `DB.Get` (newest table first). -/
def getFromTables : List Table → List Nat → Except DErr (Option (List Nat))
  | [], _ => .ok none
  | t :: ts, key =>
    if ¬ tableMaybeContains t key then getFromTables ts key
    else
      match tableGet t key with
      | .error e => .error e
      | .ok none => getFromTables ts key
      | .ok (some rec) => if rec.tombstone then .ok none else .ok (some rec.value)

/-- `DB.Get`: `.ok none` is the "not found" outcome. -/
def dbGet (d : DB) (key : List Nat) : Except DErr (Option (List Nat)) :=
  if key.length = 0 then .error .emptyKey
  else if d.closed then .error .closed
  else
    match d.mem.get key with
    | some r => if r.tombstone then .ok none else .ok (some r.value)
    | none => getFromTables d.sstables.reverse key

/-- `DB.Close` (closing an already-closed engine returns no error). -/
def dbClose (d : DB) : Option DErr × DB :=
  if d.closed then (none, d)
  else (none, { d with closed := true })

/-- A mutation at the engine interface. -/
inductive Mut where
  | put (key value : List Nat)
  | del (key : List Nat)
deriving DecidableEq

def dbStep (d : DB) (m : Mut) : Option DErr × DB :=
  match m with
  | .put k v => dbPut d k v
  | .del k => dbDelete d k

/-- Run a sequence of mutations, keeping the state of each step. -/
def dbRun (d : DB) (ms : List Mut) : DB :=
  ms.foldl (fun s m => (dbStep s m).2) d

/-! ### Supporting lemmas for the claim theorems -/

/-- In a well-formed memtable, `get k` returns a record whose key is `k`. -/
theorem mtLookup_key_eq : ∀ (l : List (List Nat × Record)) (k : List Nat) (r : Record),
    (∀ p ∈ l, p.2.key = p.1) → mtLookup l k = some r → r.key = k := by
  intro l
  induction l with
  | nil => intro k r _ hg; cases hg
  | cons q rest ih =>
    intro k r h2 hg
    obtain ⟨k0, r0⟩ := q
    by_cases hk : k0 = k
    · simp only [mtLookup, if_pos hk] at hg
      injection hg with hg
      rw [← hg, ← hk]
      exact h2 (k0, r0) (List.mem_cons_self _ _)
    · simp only [mtLookup, if_neg hk] at hg
      exact ih k r (fun p hp => h2 p (List.mem_cons_of_mem _ hp)) hg

theorem get_key_eq {m : Memtable} (h : m.wf) {k : List Nat} {r : Record}
    (hg : m.get k = some r) : r.key = k :=
  mtLookup_key_eq m.byKey k r h.2 hg

/-- The keys of the records `Build` emits are the input keys that are
present in the memtable. -/
theorem buildDataRecs_keys {mt : Memtable} (h : mt.wf) (keys : List (List Nat)) :
    (buildDataRecs keys mt).map Record.key = keys.filter (fun k => (mt.get k).isSome) := by
  induction keys with
  | nil => rfl
  | cons k ks ih =>
    unfold buildDataRecs at *
    cases hg : mt.get k with
    | none => simp [List.filterMap_cons, hg, List.filter_cons, ih]
    | some r =>
      rw [List.filterMap_cons, hg]
      rw [List.filter_cons]
      simp only [hg, Option.isSome_some]
      rw [List.map_cons, ih, get_key_eq h hg]
      simp

/-- The Bloom filter accumulated by `Build`'s data loop is `addAll` over the
present keys, for any start index offset. -/
theorem buildStep_filter (mt : Memtable) (stride : Nat) :
    ∀ (l : List (Nat × List Nat)) (w : BufWriter) (idx : List (List Nat × Nat)) (f : Filter),
      (l.foldl (buildStep mt stride) (w, idx, f)).2.2 =
        addAll f ((l.map Prod.snd).filter (fun k => (mt.get k).isSome)) := by
  intro l
  induction l with
  | nil => intro w idx f; rfl
  | cons ik rest ih =>
    intro w idx f
    simp only [List.foldl_cons, List.map_cons, List.filter_cons]
    cases hg : mt.get ik.2 with
    | none =>
      have hstep : buildStep mt stride (w, idx, f) ik = (w, idx, f) := by
        unfold buildStep
        rw [hg]
      rw [hstep]
      simp only [hg, Option.isSome_none]
      rw [ih]
      simp
    | some r =>
      have hstep : buildStep mt stride (w, idx, f) ik =
          (writeEntryW w r,
            if ik.1 % stride = 0 then idx ++ [(cloneBytes ik.2, w.out.length)] else idx,
            f.add ik.2) := by
        unfold buildStep
        rw [hg]
      rw [hstep]
      simp only [hg, Option.isSome_some]
      rw [ih]
      simp [addAll]

theorem enumFrom_map_snd {α : Type} : ∀ (n : Nat) (l : List α),
    (l.enumFrom n).map Prod.snd = l := by
  intro n l
  induction l generalizing n with
  | nil => rfl
  | cons x xs ih => simp [List.enumFrom, ih]

theorem enum_map_snd {α : Type} (l : List α) : l.enum.map Prod.snd = l :=
  enumFrom_map_snd 0 l

theorem getFromTables_none {ts : List Table} {k : List Nat}
    (h : ∀ t ∈ ts, tableMaybeContains t k = false ∨ tableGet t k = .ok none) :
    getFromTables ts k = .ok none := by
  induction ts with
  | nil => rfl
  | cons t ts ih =>
    unfold getFromTables
    rcases h t (List.mem_cons_self _ _) with hb | hg
    · rw [hb]
      simp only [Bool.false_eq_true, not_false_eq_true, if_pos]
      exact ih (fun u hu => h u (List.mem_cons_of_mem _ hu))
    · by_cases hb : tableMaybeContains t k = true
      · rw [hg]
        simp only [hb, not_true_eq_false, if_false]
        exact ih (fun u hu => h u (List.mem_cons_of_mem _ hu))
      · simp only [Bool.not_eq_true] at hb
        rw [hb]
        simp only [Bool.false_eq_true, not_false_eq_true, if_pos]
        exact ih (fun u hu => h u (List.mem_cons_of_mem _ hu))

/-! ### Concrete fixtures used by the claim theorems -/

deriving instance DecidableEq for Except

def recA : Record := ⟨[97], [49], false, 1⟩

def recB : Record := ⟨[98], [50], false, 2⟩

/-- A memtable holding records for keys `"a"` and `"b"`. -/
def mtAB : Memtable := (memNew.apply recA).apply recB

/-- The SSTable file built from that memtable with the default stride 16. -/
def fileAB : List Nat := sstBuild [[97], [98]] mtAB 16

def tableAB : Table :=
  match openTable fileAB 1 with
  | .ok t => t
  | .error _ => ⟨[], 0, [], 0, 0, 0, none⟩

/-! ### Claim theorems -/

/-- C2: the claim "for every key present in the data section of a built
SSTable, the point-lookup algorithm locates that key's record" fails on the
code.  In the two-record table built from keys `"a"` and `"b"`, the record
for `"b"` is in the data section and passes the Bloom check, yet `Table.Get`
returns a miss: the scan's stop condition compares the underlying file
offset — pushed to the end of this small file by the buffered reader's
read-ahead — against `indexOffset` and aborts after the first record.  The
record at the sparse-index position (`"a"`) is still found. -/
theorem c2_lookup_misses_inner_key :
    openTable fileAB 1 = .ok tableAB ∧
    tableAB.bytes.take tableAB.bloomOffset = entryBytes recA ++ entryBytes recB ∧
    recB ∈ buildDataRecs [[97], [98]] mtAB ∧
    tableMaybeContains tableAB [98] = true ∧
    tableGet tableAB [98] = .ok none ∧
    tableGet tableAB [97] = .ok (some recA) := by decide

def optsFlush : Options := ⟨true, 100, 0⟩

def dbStep1 : Option DErr × DB := dbPut (dbOpen optsFlush) [97] [49]

def dbStep2 : Option DErr × DB := dbPut dbStep1.2 [98] [50]

def dbStep3 : Option DErr × DB := dbPut dbStep2.2 [99] [51]

/-- C1: read-your-writes fails once a flush produces a multi-record
SSTable.  With `MemtableMaxBytes = 100`, three successful puts of
`"a"`, `"b"`, `"c"` trigger a flush on the third; afterwards `get("b")`
returns not-found although the last mutation of `"b"` was a put (the
SSTable point lookup misses every record that is not at the sparse-index
start position, see the C2 theorem), while `get("a")` still succeeds. -/
theorem c1_read_your_writes_fails :
    dbStep1.1 = none ∧ dbStep2.1 = none ∧ dbStep3.1 = none ∧
    dbStep3.2.sstables.length = 1 ∧
    dbGet dbStep3.2 [98] = .ok none ∧
    dbGet dbStep3.2 [97] = .ok (some [49]) := by decide

def outTableC3 : Table :=
  match compactionRun [tableAB] 2 with
  | .ok (some t) => t
  | _ => ⟨[], 0, [], 0, 0, 0, none⟩

/-- C3: compaction does not preserve every key.  For the single input table
holding records for `"a"` and `"b"`, the output's data section contains only
the record for `"a"`: `tableIter.next` compares the underlying file offset
(pushed to end-of-file by the buffered reader) against `indexOffset` and so
yields only the first record of each input. -/
theorem c3_compaction_drops_key :
    compactionRun [tableAB] 2 = .ok (some outTableC3) ∧
    tableAB.bytes.take tableAB.bloomOffset = entryBytes recA ++ entryBytes recB ∧
    outTableC3.bytes.take outTableC3.bloomOffset = entryBytes recA ∧
    tableGet outTableC3 [98] = .ok none := by decide

/-- C4: WAL crash resilience.  For any sequence of well-formed records
appended to a fresh WAL and any byte offset `n` at which the file is
truncated, replay terminates without error and yields a prefix of the
original record sequence together with that prefix's maximum seq. -/
theorem c4_wal_crash_resilience {rs : List WRecord} (h : ∀ r ∈ rs, r.wf) (n : Nat) :
    ∃ k, k ≤ rs.length ∧
      walReplay (some ((walBytes rs).take n)) = .ok (rs.take k, maxSeqList (rs.take k)) :=
  walReplay_truncated h n

theorem c4_witness :
    ∃ k, k ≤ ([⟨1, 1, [97], [49]⟩, ⟨2, 2, [98], []⟩] : List WRecord).length ∧
      walReplay (some ((walBytes [⟨1, 1, [97], [49]⟩, ⟨2, 2, [98], []⟩]).take 30)) =
        .ok (([⟨1, 1, [97], [49]⟩, ⟨2, 2, [98], []⟩] : List WRecord).take k,
          maxSeqList (([⟨1, 1, [97], [49]⟩, ⟨2, 2, [98], []⟩] : List WRecord).take k)) :=
  @c4_wal_crash_resilience [⟨1, 1, [97], [49]⟩, ⟨2, 2, [98], []⟩] (by decide) 30

/-- C5: WAL round-trip.  Replaying the bytes of a fresh WAL holding a
sequence of well-formed records yields exactly those records in order with
their maximum seq; replaying an absent file yields no records and seq 0. -/
theorem c5_wal_roundtrip {rs : List WRecord} (h : ∀ r ∈ rs, r.wf) :
    walReplay (some (walBytes rs)) = .ok (rs, maxSeqList rs) ∧
    walReplay none = .ok ([], 0) :=
  ⟨walReplay_roundtrip h, rfl⟩

theorem c5_witness :
    walReplay (some (walBytes [⟨1, 5, [97], [49]⟩, ⟨2, 9, [98], []⟩, ⟨1, 3, [97], [50]⟩])) =
      .ok ([⟨1, 5, [97], [49]⟩, ⟨2, 9, [98], []⟩, ⟨1, 3, [97], [50]⟩],
        maxSeqList [⟨1, 5, [97], [49]⟩, ⟨2, 9, [98], []⟩, ⟨1, 3, [97], [50]⟩]) ∧
    walReplay none = .ok ([], 0) :=
  @c5_wal_roundtrip [⟨1, 5, [97], [49]⟩, ⟨2, 9, [98], []⟩, ⟨1, 3, [97], [50]⟩] (by decide)

/-- C6: the Bloom filter has no false negatives.  For any well-formed
filter, a key added at any point of a sequence of adds answers
`maybe_contains = true` afterwards; in particular the filter accumulated by
`Build`'s data loop answers true for every key it added (the input keys
present in the memtable). -/
theorem c6_bloom_no_false_negatives :
    (∀ (f : Filter), f.wf → ∀ (keys : List (List Nat)) (key : List Nat), key ∈ keys →
      (addAll f keys).maybeContains key = true) ∧
    (∀ (keys : List (List Nat)) (mt : Memtable) (stride : Nat) (key : List Nat),
      key ∈ keys → (mt.get key).isSome →
      ((keys.enum.foldl (buildStep mt stride)
        (⟨[], []⟩, [], newForKeys keys.length 10 7)).2.2).maybeContains key = true) := by
  constructor
  · intro f hwf keys key hmem
    exact maybeContains_addAll hwf hmem
  · intro keys mt stride key hmem hsome
    rw [buildStep_filter]
    apply maybeContains_addAll (newForKeys_wf _ _ _)
    rw [enum_map_snd]
    exact List.mem_filter.mpr ⟨hmem, by simpa using hsome⟩

theorem c6_witness :
    (addAll (bloomNew 64 7) [[97], [98], [99]]).maybeContains [98] = true :=
  c6_bloom_no_false_negatives.1 (bloomNew 64 7) (bloomNew_wf 64 7) [[97], [98], [99]] [98]
    (by decide)

/-- C8: memtable apply semantics.  `Apply r` stores `r` when there is no
record for its key or the incoming seq is not smaller; it is a no-op when
the incoming seq is strictly smaller; other keys are untouched; and after
any sequence of applies from a fresh memtable, `Get k` returns a record
applied for `k` whose seq is the maximum applied seq for `k` (and not-found
exactly when no record for `k` was applied). -/
theorem c8_memtable_apply_semantics :
    (∀ (m : Memtable) (r : Record),
      (m.get r.key = none ∨ ∃ c, m.get r.key = some c ∧ c.seq ≤ r.seq) →
      (m.apply r).get r.key = some r ∧ ∀ k, k ≠ r.key → (m.apply r).get k = m.get k) ∧
    (∀ (m : Memtable) (r c : Record), m.get r.key = some c → r.seq < c.seq →
      m.apply r = m) ∧
    (∀ (rs : List Record) (k : List Nat),
      ((rs.foldl Memtable.apply memNew).get k = none ∧
        rs.filter (fun s => decide (s.key = k)) = []) ∨
      (∃ r, (rs.foldl Memtable.apply memNew).get k = some r ∧
        r ∈ rs.filter (fun s => decide (s.key = k)) ∧
        r.seq = ((rs.filter (fun s => decide (s.key = k))).map Record.seq).foldl Nat.max 0)) := by
  refine ⟨?_, ?_, get_foldl_apply⟩
  · intro m r h
    exact ⟨apply_get_self_store h, fun k hk => apply_get_ne hk⟩
  · intro m r c hc hlt
    exact apply_stale hc hlt

theorem c8_witness :
    ((memNew.apply ⟨[97], [49], false, 1⟩).apply ⟨[97], [50], false, 2⟩).get [97] =
      some ⟨[97], [50], false, 2⟩ :=
  (c8_memtable_apply_semantics.1 (memNew.apply ⟨[97], [49], false, 1⟩)
    ⟨[97], [50], false, 2⟩ (by decide)).1

def dbClosed : DB := (dbClose (dbOpen ⟨true, 0, 0⟩)).2

/-- C9 counterexample: "every public operation invoked after close returns
the closed error" is false as stated.  On a closed engine, a second `Close`
returns no error at all, and `Put`/`Get` with an empty key return the
empty-key error (the empty-key check precedes the closed check). -/
theorem c9_counterexample :
    dbClosed.closed = true ∧
    dbClose dbClosed = (none, dbClosed) ∧
    (dbPut dbClosed [] [49]).1 = some DErr.emptyKey ∧
    ¬ (dbPut dbClosed [] [49]).1 = some DErr.closed ∧
    dbGet dbClosed [] = .error DErr.emptyKey := by decide

/-- C9 (amended): `get` of a missing or tombstoned key returns the
not-found outcome without error; `put`/`delete` of an empty key return the
empty-key error and leave the state unchanged; and `put`, `delete`, `get`
of a **non-empty** key on a closed engine return the closed error (the
empty-key check precedes the closed check, and a second `close` is a
no-op returning no error). -/
theorem c9_error_contract :
    (∀ (d : DB) (k : List Nat) (r : Record), d.closed = false → k ≠ [] →
      d.mem.get k = some r → r.tombstone = true → dbGet d k = .ok none) ∧
    (∀ (d : DB) (k : List Nat), d.closed = false → k ≠ [] → d.mem.get k = none →
      (∀ t ∈ d.sstables, tableMaybeContains t k = false ∨ tableGet t k = .ok none) →
      dbGet d k = .ok none) ∧
    (∀ (t : Table) (ts : List Table) (k : List Nat) (rec : Record),
      tableMaybeContains t k = true → tableGet t k = .ok (some rec) → rec.tombstone = true →
      getFromTables (t :: ts) k = .ok none) ∧
    (∀ (d : DB) (v : List Nat), dbPut d [] v = (some .emptyKey, d) ∧
      dbDelete d [] = (some .emptyKey, d)) ∧
    (∀ (d : DB) (k v : List Nat), d.closed = true → k ≠ [] →
      dbPut d k v = (some .closed, d) ∧ dbDelete d k = (some .closed, d) ∧
      dbGet d k = .error .closed) := by
  have hkey : ∀ (k : List Nat), k ≠ [] → ¬ k.length = 0 := by
    intro k hk hl
    exact hk (List.length_eq_zero.mp hl)
  refine ⟨?_, ?_, ?_, ?_, ?_⟩
  · intro d k r hcl hk hg ht
    unfold dbGet
    rw [if_neg (hkey k hk), hcl]
    simp only [Bool.false_eq_true, if_false]
    rw [hg]
    simp [ht]
  · intro d k hcl hk hg hts
    unfold dbGet
    rw [if_neg (hkey k hk), hcl]
    simp only [Bool.false_eq_true, if_false]
    rw [hg]
    exact getFromTables_none (fun t ht => hts t (by simpa using ht))
  · intro t ts k rec hb hg htomb
    unfold getFromTables
    rw [hg]
    simp [hb, htomb]
  · intro d v
    exact ⟨rfl, rfl⟩
  · intro d k v hcl hk
    refine ⟨?_, ?_, ?_⟩
    · unfold dbPut
      rw [if_neg (hkey k hk), hcl]
      simp
    · unfold dbDelete
      rw [if_neg (hkey k hk), hcl]
      simp
    · unfold dbGet
      rw [if_neg (hkey k hk), hcl]
      simp

theorem c9_witness :
    dbPut (dbOpen ⟨true, 0, 0⟩) [] [49] = (some DErr.emptyKey, dbOpen ⟨true, 0, 0⟩) ∧
    dbGet dbClosed [97] = .error DErr.closed :=
  ⟨(c9_error_contract.2.2.2.1 (dbOpen ⟨true, 0, 0⟩) [49]).1,
    ((c9_error_contract.2.2.2.2 dbClosed [97] [49] (by decide) (by decide)).2.2)⟩

/-- C10: `get` with an empty key returns the empty-key error (not the
not-found outcome) in every engine state: the check precedes everything
else in `DB.Get`. -/
theorem c10_get_empty_key (d : DB) : dbGet d [] = .error .emptyKey := rfl

/-! ### Heap correctness (`container/heap` on `mergeHeap`) -/

theorem cLess_asymm {a b : CIter} (h : cLess a b = true) : cLess b a = false := by
  unfold cLess at *
  by_contra hc
  simp only [Bool.not_eq_false] at hc
  exact absurd (bytesLt_trans h hc) (bytesLt_irrefl _)

theorem cLess_irrefl (a : CIter) : cLess a a = false := by
  unfold cLess
  by_contra hc
  simp only [Bool.not_eq_false] at hc
  exact absurd hc (bytesLt_irrefl _)

/-- `cLess b a = false` says `a`'s key is at most `b`'s key; it is transitive. -/
theorem cLess_le_trans {a b c : CIter} (h1 : cLess b a = false) (h2 : cLess c b = false) :
    cLess c a = false := by
  unfold cLess at *
  by_contra hc
  simp only [Bool.not_eq_false] at hc
  have hab := bytesLe_of_not_lt (a := a.cur.key) (b := b.cur.key) (by simp [h1])
  exact absurd (bytesLt_le_trans hc hab) (by simp [h2])

/-- Array heap property over the first `n` entries. -/
def prefixHeapInv (l : List CIter) (n : Nat) : Prop :=
  ∀ c, c < n → 0 < c → cLess (l.getD c default) (l.getD ((c - 1) / 2) default) = false

/-- The heap property of `container/heap`. -/
def heapInv (l : List CIter) : Prop :=
  prefixHeapInv l l.length

/-- Under the heap property the root is a minimum. -/
theorem root_min {l : List CIter} (h : heapInv l) :
    ∀ j, j < l.length → cLess (l.getD j default) (l.getD 0 default) = false := by
  intro j
  induction j using Nat.strong_induction_on with
  | _ j ih =>
    intro hj
    cases Nat.eq_zero_or_pos j with
    | inl h0 =>
      subst h0
      exact cLess_irrefl _
    | inr hpos =>
      have hp : (j - 1) / 2 < j := by omega
      exact cLess_le_trans (ih _ hp (by omega)) (h j hj hpos)

theorem root_min_mem {l : List CIter} (h : heapInv l) {x : CIter} (hx : x ∈ l) :
    cLess x (l.getD 0 default) = false := by
  obtain ⟨i, hi, hget⟩ := List.getElem_of_mem hx
  have : l.getD i default = x := by
    rw [List.getD_eq_getElem?_getD, List.getElem?_eq_getElem hi]
    exact hget
  rw [← this]
  exact root_min h i hi

theorem swapL_length (l : List CIter) (i j : Nat) : (swapL l i j).length = l.length := by
  simp [swapL]

theorem getD_set_self_g {α : Type} (l : List α) {i : Nat} (v d : α) (h : i < l.length) :
    (l.set i v).getD i d = v := by
  simp [List.getD_eq_getElem?_getD, List.getElem?_set_self h]

theorem getD_set_ne_g {α : Type} (l : List α) {i j : Nat} (v d : α) (h : i ≠ j) :
    (l.set i v).getD j d = l.getD j d := by
  simp [List.getD_eq_getElem?_getD, List.getElem?_set_ne h]

theorem getD_append_left {l : List CIter} (x : CIter) {m : Nat} (h : m < l.length) :
    ((l ++ [x]).getD m default) = l.getD m default := by
  rw [List.getD_eq_getElem?_getD, List.getD_eq_getElem?_getD, List.getElem?_append_left h]

theorem getD_append_right (l : List CIter) (x : CIter) :
    ((l ++ [x]).getD l.length default) = x := by
  rw [List.getD_eq_getElem?_getD]
  rw [List.getElem?_eq_getElem (by simp)]
  simp

theorem getD_swapL_fst {l : List CIter} {i j : Nat} (hi : i < l.length) (hj : j < l.length) :
    (swapL l i j).getD i default = l.getD j default := by
  unfold swapL
  by_cases hij : i = j
  · subst hij
    rw [getD_set_self_g _ _ _ (by simpa using hi)]
  · rw [getD_set_ne_g _ _ _ (fun he => hij he.symm), getD_set_self_g _ _ _ hi]

theorem getD_swapL_snd {l : List CIter} {i j : Nat} (hi : i < l.length)
    (hj : j < l.length) : (swapL l i j).getD j default = l.getD i default := by
  have hi2 : i < l.length := hi
  unfold swapL
  rw [getD_set_self_g _ _ _ (by simpa using hj)]

theorem getD_swapL_other {l : List CIter} {i j m : Nat} (hmi : m ≠ i) (hmj : m ≠ j) :
    (swapL l i j).getD m default = l.getD m default := by
  unfold swapL
  rw [getD_set_ne_g _ _ _ (fun he => hmj he.symm), getD_set_ne_g _ _ _ (fun he => hmi he.symm)]

theorem mem_swapL {l : List CIter} {i j : Nat} (hi : i < l.length) (hj : j < l.length)
    {x : CIter} (hx : x ∈ swapL l i j) : x ∈ l := by
  unfold swapL at hx
  rcases List.mem_or_eq_of_mem_set hx with hx2 | hx2
  · rcases List.mem_or_eq_of_mem_set hx2 with hx3 | hx3
    · exact hx3
    · subst hx3
      rw [List.getD_eq_getElem?_getD, List.getElem?_eq_getElem hj]
      exact List.getElem_mem _
  · subst hx2
    rw [List.getD_eq_getElem?_getD, List.getElem?_eq_getElem hi]
    exact List.getElem_mem _

/-- Invariant of `up`: every heap edge holds except possibly the one into
`j`, and `j`'s children are bounded below by `j`'s parent. -/
def UpInv (l : List CIter) (j : Nat) : Prop :=
  j < l.length ∧
  (∀ c, c < l.length → 0 < c → c ≠ j →
    cLess (l.getD c default) (l.getD ((c - 1) / 2) default) = false) ∧
  (∀ c, c < l.length → 0 < c → (c - 1) / 2 = j → 0 < j →
    cLess (l.getD c default) (l.getD ((j - 1) / 2) default) = false)

theorem heapUp_length : ∀ (fuel : Nat) (l : List CIter) (j : Nat),
    (heapUp fuel l j).length = l.length := by
  intro fuel
  induction fuel with
  | zero => intro l j; rfl
  | succ f ih =>
    intro l j
    unfold heapUp
    by_cases hj : j = 0
    · rw [if_pos hj]
    · rw [if_neg hj]
      by_cases hl : ¬ cLess (l.getD j default) (l.getD ((j - 1) / 2) default)
      · rw [if_pos hl]
      · rw [if_neg hl, ih, swapL_length]

theorem heapUp_mem : ∀ (fuel : Nat) (l : List CIter) (j : Nat), j < l.length →
    ∀ x ∈ heapUp fuel l j, x ∈ l := by
  intro fuel
  induction fuel with
  | zero => intro l j _ x hx; exact hx
  | succ f ih =>
    intro l j hj x hx
    unfold heapUp at hx
    by_cases hj0 : j = 0
    · rw [if_pos hj0] at hx; exact hx
    · rw [if_neg hj0] at hx
      by_cases hl : ¬ cLess (l.getD j default) (l.getD ((j - 1) / 2) default)
      · rw [if_pos hl] at hx; exact hx
      · rw [if_neg hl] at hx
        have hi : (j - 1) / 2 < l.length := by omega
        exact mem_swapL hi hj (ih _ _ (by rw [swapL_length]; omega) x hx)

theorem heapUp_inv : ∀ (fuel : Nat) (j : Nat) (l : List CIter), j < fuel → UpInv l j →
    heapInv (heapUp fuel l j) := by
  intro fuel
  induction fuel with
  | zero => intro j l hj; omega
  | succ f ih =>
    intro j l hjf hinv
    obtain ⟨hj, h2, h3⟩ := hinv
    unfold heapUp
    by_cases hj0 : j = 0
    · rw [if_pos hj0]
      intro c hc hc0
      exact h2 c hc hc0 (by omega)
    · rw [if_neg hj0]
      by_cases hbrk : ¬ cLess (l.getD j default) (l.getD ((j - 1) / 2) default)
      · rw [if_pos hbrk]
        intro c hc hc0
        by_cases hcj : c = j
        · subst hcj
          simpa using hbrk
        · exact h2 c hc hc0 hcj
      · rw [if_neg hbrk]
        simp only [Bool.not_eq_true, Bool.not_eq_false] at hbrk
        have hjpos : 0 < j := by omega
        have hi : (j - 1) / 2 < j := by omega
        have hilen : (j - 1) / 2 < l.length := by omega
        apply ih ((j - 1) / 2) (swapL l ((j - 1) / 2) j) (by omega)
        refine ⟨by rw [swapL_length]; omega, ?_, ?_⟩
        · -- all edges except the one into the new hole
          intro c hc hc0 hci
          rw [swapL_length] at hc
          by_cases hcj : c = j
          · -- the swapped edge itself now holds
            subst hcj
            rw [getD_swapL_snd hilen hj, getD_swapL_fst hilen hj]
            exact cLess_asymm hbrk
          · have hcneq : c ≠ (j - 1) / 2 := hci
            rw [getD_swapL_other hcneq hcj]
            by_cases hpj : (c - 1) / 2 = j
            · -- a child of the old hole: use the grandparent bound
              rw [hpj, getD_swapL_snd hilen hj]
              exact h3 c hc hc0 hpj hjpos
            · by_cases hpi : (c - 1) / 2 = (j - 1) / 2
              · -- a sibling under the new hole position
                rw [hpi, getD_swapL_fst hilen hj]
                have hce := h2 c hc hc0 hcj
                rw [hpi] at hce
                exact cLess_le_trans (cLess_asymm hbrk) hce
              · rw [getD_swapL_other hpi hpj]
                exact h2 c hc hc0 hcj
        · -- children of the new hole are bounded by its parent
          intro c hc hc0 hpc hipos
          rw [swapL_length] at hc
          have hgp_ne_i : ((j - 1) / 2 - 1) / 2 ≠ (j - 1) / 2 := by omega
          have hgp_ne_j : ((j - 1) / 2 - 1) / 2 ≠ j := by omega
          rw [getD_swapL_other hgp_ne_i hgp_ne_j]
          by_cases hcj : c = j
          · rw [hcj, getD_swapL_snd hilen hj]
            exact h2 ((j - 1) / 2) hilen hipos (by omega)
          · have hcnei : c ≠ (j - 1) / 2 := by omega
            rw [getD_swapL_other hcnei hcj]
            have hedge := h2 c hc hc0 hcj
            rw [hpc] at hedge
            have hup := h2 ((j - 1) / 2) hilen hipos (by omega)
            exact cLess_le_trans hup hedge

/-- `Push` preserves the heap property. -/
theorem heapPush_inv {l : List CIter} (h : heapInv l) (x : CIter) :
    heapInv (heapPush l x) := by
  unfold heapPush
  apply heapUp_inv _ _ _ (by omega)
  refine ⟨by simp, ?_, ?_⟩
  · intro c hc hc0 hcj
    simp only [List.length_append, List.length_cons, List.length_nil] at hc
    have hclt : c < l.length := by omega
    have hplt : (c - 1) / 2 < l.length := by omega
    rw [getD_append_left _ hclt, getD_append_left _ hplt]
    exact h c hclt hc0
  · intro c hc hc0 hpc hl0
    simp only [List.length_append, List.length_cons, List.length_nil] at hc
    omega

theorem heapPush_mem {l : List CIter} {x y : CIter} (hy : y ∈ heapPush l x) :
    y ∈ l ∨ y = x := by
  unfold heapPush at hy
  have := heapUp_mem _ _ _ (by simp) y hy
  simpa using List.mem_append.mp this

theorem heapPush_length (l : List CIter) (x : CIter) :
    (heapPush l x).length = l.length + 1 := by
  unfold heapPush
  rw [heapUp_length]
  simp

/-- Invariant of `down`: within the first `n` entries every heap edge holds
except possibly the ones out of `i`, and `i`'s children are bounded below
by `i`'s parent. -/
def DownInv (l : List CIter) (i n : Nat) : Prop :=
  i < n ∧ n ≤ l.length ∧
  (∀ c, c < n → 0 < c → (c - 1) / 2 ≠ i →
    cLess (l.getD c default) (l.getD ((c - 1) / 2) default) = false) ∧
  (∀ c, c < n → 0 < c → (c - 1) / 2 = i → 0 < i →
    cLess (l.getD c default) (l.getD ((i - 1) / 2) default) = false)

theorem heapDownGo_length : ∀ (fuel : Nat) (l : List CIter) (i n : Nat),
    (heapDownGo fuel l i n).length = l.length := by
  intro fuel
  induction fuel with
  | zero => intro l i n; rfl
  | succ f ih =>
    intro l i n
    unfold heapDownGo
    by_cases h1 : n ≤ 2 * i + 1
    · rw [if_pos h1]
    · rw [if_neg h1]
      by_cases h2 : ¬ cLess (l.getD (if 2 * i + 1 + 1 < n ∧
          cLess (l.getD (2 * i + 1 + 1) default) (l.getD (2 * i + 1) default)
          then 2 * i + 1 + 1 else 2 * i + 1) default) (l.getD i default)
      · rw [if_pos h2]
      · rw [if_neg h2, ih, swapL_length]

theorem heapDownGo_mem : ∀ (fuel : Nat) (l : List CIter) (i n : Nat), n ≤ l.length →
    ∀ x ∈ heapDownGo fuel l i n, x ∈ l := by
  intro fuel
  induction fuel with
  | zero => intro l i n _ x hx; exact hx
  | succ f ih =>
    intro l i n hn x hx
    unfold heapDownGo at hx
    by_cases h1 : n ≤ 2 * i + 1
    · rw [if_pos h1] at hx; exact hx
    · rw [if_neg h1] at hx
      set j := if 2 * i + 1 + 1 < n ∧
        cLess (l.getD (2 * i + 1 + 1) default) (l.getD (2 * i + 1) default)
        then 2 * i + 1 + 1 else 2 * i + 1 with hjdef
      by_cases h2 : ¬ cLess (l.getD j default) (l.getD i default)
      · rw [if_pos h2] at hx; exact hx
      · rw [if_neg h2] at hx
        have hjn : j < n := by
          rw [hjdef]
          split
          · omega
          · omega
        have hil : i < l.length := by omega
        have hjl : j < l.length := by omega
        exact mem_swapL hil hjl (ih _ _ _ (by rw [swapL_length]; omega) x hx)

theorem heapDownGo_above : ∀ (fuel : Nat) (l : List CIter) (i n m : Nat), n ≤ m →
    (heapDownGo fuel l i n).getD m default = l.getD m default := by
  intro fuel
  induction fuel with
  | zero => intro l i n m _; rfl
  | succ f ih =>
    intro l i n m hm
    unfold heapDownGo
    by_cases h1 : n ≤ 2 * i + 1
    · rw [if_pos h1]
    · rw [if_neg h1]
      set j := if 2 * i + 1 + 1 < n ∧
        cLess (l.getD (2 * i + 1 + 1) default) (l.getD (2 * i + 1) default)
        then 2 * i + 1 + 1 else 2 * i + 1 with hjdef
      by_cases h2 : ¬ cLess (l.getD j default) (l.getD i default)
      · rw [if_pos h2]
      · rw [if_neg h2, ih _ _ _ _ hm]
        have hjn : j < n := by
          rw [hjdef]
          split
          · omega
          · omega
        exact getD_swapL_other (by omega) (by omega)

theorem heapDownGo_inv : ∀ (fuel : Nat) (i : Nat) (l : List CIter) (n : Nat),
    n - i < fuel → DownInv l i n → prefixHeapInv (heapDownGo fuel l i n) n := by
  intro fuel
  induction fuel with
  | zero => intro i l n hf; omega
  | succ f ih =>
    intro i l n hf hinv
    obtain ⟨hin, hnl, h2, h3⟩ := hinv
    unfold heapDownGo
    by_cases h1 : n ≤ 2 * i + 1
    · rw [if_pos h1]
      intro c hc hc0
      by_cases hpc : (c - 1) / 2 = i
      · omega
      · exact h2 c hc hc0 hpc
    · rw [if_neg h1]
      set j := if 2 * i + 1 + 1 < n ∧
        cLess (l.getD (2 * i + 1 + 1) default) (l.getD (2 * i + 1) default)
        then 2 * i + 1 + 1 else 2 * i + 1 with hjdef
      have hjn : j < n := by
        rw [hjdef]
        split
        · omega
        · omega
      have hij : i < j := by
        rw [hjdef]
        split
        · omega
        · omega
      have hparj : (j - 1) / 2 = i := by
        rw [hjdef]
        split
        · omega
        · omega
      -- the selected child is the lesser of the (up to two) children
      have hminChild : ∀ c, c < n → 0 < c → (c - 1) / 2 = i →
          cLess (l.getD c default) (l.getD j default) = false := by
        intro c hc hc0 hpc
        have hc12 : c = 2 * i + 1 ∨ c = 2 * i + 1 + 1 := by omega
        rw [hjdef]
        by_cases hcond : 2 * i + 1 + 1 < n ∧
            cLess (l.getD (2 * i + 1 + 1) default) (l.getD (2 * i + 1) default)
        · rw [if_pos hcond]
          rcases hc12 with hc1 | hc1
          · subst hc1
            exact cLess_asymm hcond.2
          · subst hc1
            exact cLess_irrefl _
        · rw [if_neg hcond]
          rcases hc12 with hc1 | hc1
          · subst hc1
            exact cLess_irrefl _
          · subst hc1
            have : ¬ cLess (l.getD (2 * i + 1 + 1) default) (l.getD (2 * i + 1) default)
                = true := by
              intro hcl
              exact hcond ⟨by omega, hcl⟩
            simpa using this
      by_cases hbrk : ¬ cLess (l.getD j default) (l.getD i default)
      · rw [if_pos hbrk]
        simp only [Bool.not_eq_true] at hbrk
        intro c hc hc0
        by_cases hpc : (c - 1) / 2 = i
        · rw [hpc]
          exact cLess_le_trans hbrk (hminChild c hc hc0 hpc)
        · exact h2 c hc hc0 hpc
      · rw [if_neg hbrk]
        simp only [Bool.not_eq_true, Bool.not_eq_false] at hbrk
        have hil : i < l.length := by omega
        have hjl : j < l.length := by omega
        apply ih j (swapL l i j) n (by omega)
        refine ⟨hjn, by rw [swapL_length]; omega, ?_, ?_⟩
        · intro c hc hc0 hpcj
          by_cases hci : c = i
          · -- the hole moved down; the old slot now holds the lesser child
            rw [hci, getD_swapL_fst hil hjl]
            have hi0 : 0 < i := by omega
            have hpi_ne_i : (i - 1) / 2 ≠ i := by omega
            have hpi_ne_j : (i - 1) / 2 ≠ j := by omega
            rw [getD_swapL_other hpi_ne_i hpi_ne_j]
            exact h3 j hjn (by omega) hparj hi0
          · by_cases hcj : c = j
            · rw [hcj, getD_swapL_snd hil hjl, hparj, getD_swapL_fst hil hjl]
              exact cLess_asymm hbrk
            · rw [getD_swapL_other hci hcj]
              by_cases hpci : (c - 1) / 2 = i
              · rw [hpci, getD_swapL_fst hil hjl]
                exact hminChild c hc hc0 hpci
              · have hpc_ne_j : (c - 1) / 2 ≠ j := hpcj
                rw [getD_swapL_other hpci hpc_ne_j]
                exact h2 c hc hc0 hpci
        · intro c hc hc0 hpcj hj0
          rw [hparj, getD_swapL_fst hil hjl]
          have hcj : c ≠ j := by omega
          have hci : c ≠ i := by omega
          rw [getD_swapL_other hci hcj]
          have hedge := h2 c hc hc0 (by omega)
          rw [hpcj] at hedge
          exact hedge

theorem heapPop_def (l : List CIter) : heapPop l =
    ((heapDownGo (l.length + 2) (swapL l 0 (l.length - 1)) 0 (l.length - 1)).getD
      (l.length - 1) default,
     (heapDownGo (l.length + 2) (swapL l 0 (l.length - 1)) 0 (l.length - 1)).take
      (l.length - 1)) := rfl

/-- `Pop` returns the root. -/
theorem heapPop_fst {l : List CIter} (h0 : 0 < l.length) :
    (heapPop l).1 = l.getD 0 default := by
  rw [heapPop_def]
  show (heapDownGo (l.length + 2) (swapL l 0 (l.length - 1)) 0 (l.length - 1)).getD
      (l.length - 1) default = l.getD 0 default
  rw [heapDownGo_above _ _ _ _ _ le_rfl]
  exact getD_swapL_snd (by omega) (by omega)

theorem heapPop_length {l : List CIter} (h0 : 0 < l.length) :
    (heapPop l).2.length = l.length - 1 := by
  rw [heapPop_def]
  show ((heapDownGo (l.length + 2) (swapL l 0 (l.length - 1)) 0
    (l.length - 1)).take (l.length - 1)).length = l.length - 1
  rw [List.length_take, heapDownGo_length, swapL_length]
  omega

theorem heapPop_mem {l : List CIter} (h0 : 0 < l.length) {x : CIter}
    (hx : x ∈ (heapPop l).2) : x ∈ l := by
  rw [heapPop_def] at hx
  have hx2 := List.mem_of_mem_take hx
  have hx3 := heapDownGo_mem _ _ _ _ (by rw [swapL_length]; omega) x hx2
  exact mem_swapL (by omega) (by omega) hx3

/-- `Pop` preserves the heap property on the remaining elements. -/
theorem heapPop_inv {l : List CIter} (h : heapInv l) (h0 : 0 < l.length) :
    heapInv (heapPop l).2 := by
  by_cases hn : l.length - 1 = 0
  · intro c hc hc0
    rw [heapPop_length h0, hn] at hc
    omega
  · have hpre : prefixHeapInv (heapDownGo (l.length + 2) (swapL l 0 (l.length - 1)) 0
        (l.length - 1)) (l.length - 1) := by
      apply heapDownGo_inv _ _ _ _ (by omega)
      refine ⟨by omega, by rw [swapL_length]; omega, ?_, ?_⟩
      · intro c hc hc0 hpc
        have hc_ne0 : c ≠ 0 := by omega
        have hc_nen : c ≠ l.length - 1 := by omega
        have hp_ne0 : (c - 1) / 2 ≠ 0 := hpc
        have hp_nen : (c - 1) / 2 ≠ l.length - 1 := by omega
        rw [getD_swapL_other hc_ne0 hc_nen, getD_swapL_other hp_ne0 hp_nen]
        exact h c (by omega) hc0
      · intro c hc hc0 hpc hi0
        omega
    intro c hc hc0
    rw [heapPop_length h0] at hc
    rw [heapPop_def]
    have hc_lt : c < l.length - 1 := hc
    have hgc : ((heapDownGo (l.length + 2) (swapL l 0 (l.length - 1)) 0
        (l.length - 1)).take (l.length - 1)).getD c default =
        (heapDownGo (l.length + 2) (swapL l 0 (l.length - 1)) 0 (l.length - 1)).getD c
          default := by
      rw [List.getD_eq_getElem?_getD, List.getD_eq_getElem?_getD,
        List.getElem?_take_of_lt hc_lt]
    have hgp : ((heapDownGo (l.length + 2) (swapL l 0 (l.length - 1)) 0
        (l.length - 1)).take (l.length - 1)).getD ((c - 1) / 2) default =
        (heapDownGo (l.length + 2) (swapL l 0 (l.length - 1)) 0 (l.length - 1)).getD
          ((c - 1) / 2) default := by
      rw [List.getD_eq_getElem?_getD, List.getD_eq_getElem?_getD,
        List.getElem?_take_of_lt (by omega)]
    rw [hgc, hgp]
    exact hpre c hc_lt hc0

/-- Everything remaining after `Pop` is at least the popped root. -/
theorem heapPop_min {l : List CIter} (h : heapInv l) (h0 : 0 < l.length) {x : CIter}
    (hx : x ∈ (heapPop l).2) : cLess x ((heapPop l).1) = false := by
  rw [heapPop_fst h0]
  exact root_min_mem h (heapPop_mem h0 hx)

theorem heapPop_fst_mem {l : List CIter} (h0 : 0 < l.length) : (heapPop l).1 ∈ l := by
  rw [heapPop_fst h0]
  rw [List.getD_eq_getElem?_getD, List.getElem?_eq_getElem h0]
  exact List.getElem_mem _

/-! ### Iterator yields versus the parsed data section -/

/-- Records parsed sequentially from position `L`, stopping at `idxOff`
(the logical scan the iterator would perform without buffering). -/
def parseBdd : Nat → List Nat → Nat → Nat → List Record
  | 0, _, _, _ => []
  | fuel + 1, bytes, idxOff, L =>
    if idxOff ≤ L then []
    else
      match readEntryB (bytes.drop L) with
      | .got r c => r :: parseBdd fuel bytes idxOff (L + c)
      | _ => []

def parseBddAll (bytes : List Nat) (idxOff L : Nat) : List Record :=
  parseBdd (bytes.length + 1) bytes idxOff L

theorem parseBdd_succ (fuel : Nat) (bytes : List Nat) (idxOff L : Nat) :
    parseBdd (fuel + 1) bytes idxOff L =
      (if idxOff ≤ L then []
      else
        match readEntryB (bytes.drop L) with
        | .got r c => r :: parseBdd fuel bytes idxOff (L + c)
        | _ => []) := rfl

theorem readEntryB_got_le {b : List Nat} {r : Record} {c : Nat}
    (h : readEntryB b = .got r c) : 18 ≤ c ∧ c ≤ b.length := by
  unfold readEntryB at h
  by_cases h0 : b.length = 0
  · rw [if_pos h0] at h; cases h
  · rw [if_neg h0] at h
    by_cases h1 : b.length < 4
    · rw [if_pos h1] at h; cases h
    · rw [if_neg h1] at h
      by_cases h2 : de32 b = 0
      · rw [if_pos h2] at h; cases h
      · rw [if_neg h2] at h
        by_cases h3 : b.length < 4 + de32 b
        · rw [if_pos h3] at h; cases h
        · rw [if_neg h3] at h
          by_cases h4 : b.length < 4 + de32 b + 1
          · rw [if_pos h4] at h; cases h
          · rw [if_neg h4] at h
            by_cases h5 : b.length < 4 + de32 b + 1 + 4
            · rw [if_pos h5] at h; cases h
            · rw [if_neg h5] at h
              by_cases h6 : b.length < 4 + de32 b + 1 + 4 + de32 (b.drop (4 + de32 b + 1))
              · rw [if_pos h6] at h; cases h
              · rw [if_neg h6] at h
                by_cases h7 : b.length <
                    4 + de32 b + 1 + 4 + de32 (b.drop (4 + de32 b + 1)) + 8
                · rw [if_pos h7] at h; cases h
                · rw [if_neg h7] at h
                  injection h with h8 h9
                  omega

theorem parseBdd_congr : ∀ (f1 : Nat) (bytes : List Nat) (idxOff L : Nat) (f2 : Nat),
    bytes.length - L < f1 → bytes.length - L < f2 →
    parseBdd f1 bytes idxOff L = parseBdd f2 bytes idxOff L := by
  intro f1
  induction f1 with
  | zero => intro bytes idxOff L f2 h1; omega
  | succ g1 ih =>
    intro bytes idxOff L f2 h1 h2
    cases f2 with
    | zero => omega
    | succ g2 =>
      rw [parseBdd_succ, parseBdd_succ]
      by_cases hL : idxOff ≤ L
      · rw [if_pos hL, if_pos hL]
      · rw [if_neg hL, if_neg hL]
        cases hre : readEntryB (bytes.drop L) with
        | eof => rfl
        | corrupt => rfl
        | got r c =>
          obtain ⟨hc18, hcle⟩ := readEntryB_got_le hre
          rw [List.length_drop] at hcle
          have hlen : bytes.length - (L + c) < g1 := by omega
          show r :: parseBdd g1 bytes idxOff (L + c) = r :: parseBdd g2 bytes idxOff (L + c)
          rw [ih bytes idxOff (L + c) g2 hlen (by omega)]

theorem parseBddAll_step {bytes : List Nat} {idxOff L : Nat} {r : Record} {c : Nat}
    (hL : ¬ idxOff ≤ L) (hre : readEntryB (bytes.drop L) = .got r c) :
    parseBddAll bytes idxOff L = r :: parseBddAll bytes idxOff (L + c) := by
  obtain ⟨hc18, hcle⟩ := readEntryB_got_le hre
  rw [List.length_drop] at hcle
  unfold parseBddAll
  rw [parseBdd_succ, if_neg hL, hre]
  show r :: parseBdd bytes.length bytes idxOff (L + c) =
    r :: parseBdd (bytes.length + 1) bytes idxOff (L + c)
  rw [parseBdd_congr bytes.length bytes idxOff (L + c) (bytes.length + 1) (by omega) (by omega)]

theorem fillTo_ge : ∀ (fuel target F size : Nat), target - F < fuel →
    target ≤ fillTo fuel target F size ∨ size ≤ fillTo fuel target F size := by
  intro fuel
  induction fuel with
  | zero => intro target F size h; omega
  | succ f ih =>
    intro target F size h
    unfold fillTo
    by_cases hstop : target ≤ F ∨ size ≤ F
    · rw [if_pos hstop]
      exact hstop
    · rw [if_neg hstop]
      push_neg at hstop
      apply ih
      have : F + 1 ≤ min (F + bufCap) size := by
        unfold bufCap
        omega
      omega

/-- What a successful `iterNext` guarantees: the yielded record is the head
of the remaining logical parse, and the reader state stays well-formed. -/
theorem iterNext_spec {st : IterState} {r : Record} {st' : IterState}
    (hLF : st.L ≤ st.F) (h : iterNext st = .ok (some (r, st'))) :
    st'.bytes = st.bytes ∧ st'.idxOff = st.idxOff ∧ st'.L ≤ st'.F ∧
    parseBddAll st.bytes st.idxOff st.L = r :: parseBddAll st.bytes st.idxOff st'.L := by
  unfold iterNext at h
  by_cases hstop : st.idxOff ≤ st.F
  · rw [if_pos hstop] at h; cases h
  · rw [if_neg hstop] at h
    cases hre : readEntryB (st.bytes.drop st.L) with
    | eof => rw [hre] at h; cases h
    | corrupt => rw [hre] at h; cases h
    | got rec c =>
      rw [hre] at h
      injection h with h
      injection h with h
      injection h with h1 h2
      obtain ⟨hc18, hcle⟩ := readEntryB_got_le hre
      rw [List.length_drop] at hcle
      subst h1
      have hLlt : ¬ st.idxOff ≤ st.L := by omega
      refine ⟨?_, ?_, ?_, ?_⟩
      · rw [← h2]
      · rw [← h2]
      · rw [← h2]
        show st.L + c ≤ fillTo (st.L + c + 1) (st.L + c) st.F st.bytes.length
        rcases fillTo_ge (st.L + c + 1) (st.L + c) st.F st.bytes.length (by omega) with hf | hf
        · exact hf
        · omega
      · rw [← h2]
        exact parseBddAll_step hLlt hre

/-- Iterator/heap element invariant: the logical position is behind the
underlying offset, and the current record followed by the remaining logical
parse is sorted. -/
def IterGood (x : CIter) : Prop :=
  x.st.L ≤ x.st.F ∧
  ((x.cur :: parseBddAll x.st.bytes x.st.idxOff x.st.L).map Record.key).Pairwise
    (fun a b => bytesLe a b)

theorem iterNext_good {x : CIter} (hg : IterGood x) {r : Record} {st' : IterState}
    (h : iterNext x.st = .ok (some (r, st'))) :
    IterGood ⟨st', r⟩ ∧ bytesLe x.cur.key r.key := by
  obtain ⟨hLF, hsort⟩ := hg
  obtain ⟨hb, hi, hLF', hstep⟩ := iterNext_spec hLF h
  rw [hstep] at hsort
  simp only [List.map_cons, List.pairwise_cons] at hsort
  constructor
  · refine ⟨hLF', ?_⟩
    show ((r :: parseBddAll st'.bytes st'.idxOff st'.L).map Record.key).Pairwise _
    rw [hb, hi]
    simp only [List.map_cons, List.pairwise_cons]
    exact ⟨hsort.2.1, hsort.2.2⟩
  · exact hsort.1 r.key (by simp)

/-- The merge loop emits a strictly increasing key list (and a well-formed
output memtable) whenever the heap is a valid heap of good iterators. -/
theorem mergeLoop_sorted : ∀ (fuel : Nat) (h : List CIter) (mt : Memtable)
    (keys : List (List Nat)) (curKey : List Nat) (best : Record) (pending : Bool)
    (mt' : Memtable) (keys' : List (List Nat)),
    heapInv h → (∀ x ∈ h, IterGood x) →
    (pending = true → ∀ x ∈ h, bytesLe curKey x.cur.key) →
    (pending = true → best.key = curKey) →
    (pending = false → keys = []) →
    keys.Pairwise (fun a b => bytesLt a b) →
    (pending = true → ∀ k ∈ keys, bytesLt k curKey) →
    mt.wf →
    mergeLoop fuel h mt keys curKey best pending = .ok (mt', keys') →
    keys'.Pairwise (fun a b => bytesLt a b) ∧ mt'.wf := by
  intro fuel
  induction fuel with
  | zero =>
    intro h mt keys curKey best pending mt' keys' _ _ _ _ _ _ _ _ hres
    cases hres
  | succ f ih =>
    intro h mt keys curKey best pending mt' keys' hheap hgood hbound hbk hkeys0 hkeys hkb hwf hres
    unfold mergeLoop at hres
    by_cases hlen : h.length = 0
    · rw [if_pos hlen] at hres
      by_cases hp : pending = true
      · rw [hp] at hres
        simp only [if_pos] at hres
        injection hres with hres
        injection hres with hmt hkeys2
        subst hmt hkeys2
        constructor
        · rw [List.pairwise_append]
          refine ⟨hkeys, List.pairwise_singleton _ _, ?_⟩
          intro a ha b hb
          simp only [cloneBytes, List.mem_singleton] at hb
          subst hb
          rw [hbk hp]
          exact hkb hp a ha
        · exact apply_wf hwf best
      · simp only [Bool.not_eq_true] at hp
        rw [hp] at hres
        simp only [Bool.false_eq_true, if_false] at hres
        injection hres with hres
        injection hres with hmt hkeys2
        subst hmt hkeys2
        exact ⟨hkeys, hwf⟩
    · rw [if_neg hlen] at hres
      have hpos : 0 < h.length := by omega
      have htop_mem : (heapPop h).1 ∈ h := heapPop_fst_mem hpos
      have htop_good : IterGood (heapPop h).1 := hgood _ htop_mem
      have hrest_inv : heapInv (heapPop h).2 := heapPop_inv hheap hpos
      have hrest_good : ∀ x ∈ (heapPop h).2, IterGood x :=
        fun x hx => hgood x (heapPop_mem hpos hx)
      have hrest_min : ∀ x ∈ (heapPop h).2, cLess x ((heapPop h).1) = false :=
        fun x hx => heapPop_min hheap hpos hx
      set top := (heapPop h).1 with htopdef
      set h2 := (heapPop h).2 with h2def
      by_cases hsame : pending = true ∧ top.cur.key = curKey
      · rw [if_pos hsame] at hres
        obtain ⟨hp, hkeq⟩ := hsame
        -- the new best stays in the current group
        have hbk2 : (if best.seq < top.cur.seq then top.cur else best).key = curKey := by
          by_cases hs : best.seq < top.cur.seq
          · rw [if_pos hs]
            exact hkeq
          · rw [if_neg hs]
            exact hbk hp
        cases hnx : iterNext top.st with
        | error e =>
          rw [hnx] at hres
          cases hres
        | ok o =>
          rw [hnx] at hres
          cases o with
          | none =>
            exact ih h2 mt keys curKey _ true mt' keys' hrest_inv hrest_good
              (fun _ x hx => hbound hp x (heapPop_mem hpos hx))
              (fun _ => hbk2) (by simp) hkeys (fun _ => hkb hp) hwf hres
          | some q =>
            obtain ⟨hq_good, hq_le⟩ := iterNext_good htop_good hnx
            apply ih (heapPush h2 ⟨q.2, q.1⟩) mt keys curKey _ true mt' keys'
              (heapPush_inv hrest_inv _) ?_ ?_ (fun _ => hbk2) (by simp) hkeys
              (fun _ => hkb hp) hwf hres
            · intro x hx
              rcases heapPush_mem hx with hx2 | hx2
              · exact hrest_good x hx2
              · subst hx2
                exact hq_good
            · intro _ x hx
              rcases heapPush_mem hx with hx2 | hx2
              · exact hbound hp x (heapPop_mem hpos hx2)
              · subst hx2
                show bytesLe curKey q.1.key
                rw [← hkeq]
                exact hq_le
      · rw [if_neg hsame] at hres
        -- a new key group starts at the popped record
        have hmt2wf : (if pending then mt.apply best else mt).wf := by
          by_cases hp : pending = true
          · rw [hp]
            simpa using apply_wf hwf best
          · simp only [Bool.not_eq_true] at hp
            rw [hp]
            simpa using hwf
        have hkeys2_sorted :
            (if pending then keys ++ [cloneBytes best.key] else keys).Pairwise
              (fun a b => bytesLt a b) := by
          by_cases hp : pending = true
          · rw [hp]
            simp only [if_pos]
            rw [List.pairwise_append]
            refine ⟨hkeys, List.pairwise_singleton _ _, ?_⟩
            intro a ha b hb
            simp only [cloneBytes, List.mem_singleton] at hb
            subst hb
            rw [hbk hp]
            exact hkb hp a ha
          · simp only [Bool.not_eq_true] at hp
            rw [hp]
            simpa using hkeys
        have hcur_le_top : pending = true → bytesLe curKey top.cur.key := by
          intro hp
          exact hbound hp top htop_mem
        have hkeys2_lt : ∀ k ∈ (if pending then keys ++ [cloneBytes best.key] else keys),
            bytesLt k (cloneBytes top.cur.key) := by
          intro k hk
          by_cases hp : pending = true
          · rw [hp] at hk
            simp only [if_pos, List.mem_append, List.mem_singleton] at hk
            have hne : ¬ top.cur.key = curKey := by
              intro he
              exact hsame ⟨hp, he⟩
            rcases hk with hk | hk
            · show bytesLt k top.cur.key
              exact bytesLt_le_trans (hkb hp k hk) (hcur_le_top hp)
            · rw [hk]
              show bytesLt (cloneBytes best.key) top.cur.key
              simp only [cloneBytes]
              rw [hbk hp]
              exact bytesLt_of_le_of_ne (hcur_le_top hp) (fun he => hne he.symm)
          · simp only [Bool.not_eq_true] at hp
            rw [hp] at hk
            rw [hkeys0 hp] at hk
            simp at hk
        have hbound2 : ∀ x ∈ h2, bytesLe (cloneBytes top.cur.key) x.cur.key := by
          intro x hx
          show bytesLe top.cur.key x.cur.key
          have := hrest_min x hx
          unfold cLess at this
          exact bytesLe_of_not_lt (by simp [this])
        cases hnx : iterNext top.st with
        | error e =>
          rw [hnx] at hres
          cases hres
        | ok o =>
          rw [hnx] at hres
          cases o with
          | none =>
            exact ih h2 _ _ (cloneBytes top.cur.key) top.cur true mt' keys'
              hrest_inv hrest_good (fun _ => hbound2) (fun _ => by simp [cloneBytes])
              (by simp) hkeys2_sorted (fun _ => hkeys2_lt) hmt2wf hres
          | some q =>
            obtain ⟨hq_good, hq_le⟩ := iterNext_good htop_good hnx
            apply ih (heapPush h2 ⟨q.2, q.1⟩) _ _ (cloneBytes top.cur.key) top.cur true
              mt' keys' (heapPush_inv hrest_inv _) ?_ ?_ (fun _ => by simp [cloneBytes])
              (by simp) hkeys2_sorted (fun _ => hkeys2_lt) hmt2wf hres
            · intro x hx
              rcases heapPush_mem hx with hx2 | hx2
              · exact hrest_good x hx2
              · subst hx2
                exact hq_good
            · intro _ x hx
              rcases heapPush_mem hx with hx2 | hx2
              · exact hbound2 x hx2
              · subst hx2
                show bytesLe (cloneBytes top.cur.key) q.1.key
                simpa [cloneBytes] using hq_le

theorem newTableIter_LF {t : Table} {st : IterState} (h : newTableIter t = .ok st) :
    st.L = 0 ∧ st.F = 0 := by
  unfold newTableIter at h
  by_cases h1 : t.bytes.length < 14
  · rw [if_pos h1] at h; cases h
  · rw [if_neg h1] at h
    by_cases h2 : de32 ((t.bytes.drop (t.bytes.length - 14)).drop 8) ≠ sstMagic
    · rw [if_pos h2] at h; cases h
    · rw [if_neg h2] at h
      by_cases h3 : de16 ((t.bytes.drop (t.bytes.length - 14)).drop 12) = 1
      · rw [if_pos h3] at h
        injection h with h
        rw [← h]
        exact ⟨rfl, rfl⟩
      · rw [if_neg h3] at h
        by_cases h4 : t.bytes.length < 30
        · rw [if_pos h4] at h; cases h
        · rw [if_neg h4] at h
          injection h with h
          rw [← h]
          exact ⟨rfl, rfl⟩

theorem initIters_mem : ∀ (inputs : List Table) (sts : List IterState),
    initIters inputs = .ok sts → ∀ st ∈ sts, ∃ t ∈ inputs, newTableIter t = .ok st := by
  intro inputs
  induction inputs with
  | nil =>
    intro sts h st hst
    injection h with h
    rw [← h] at hst
    cases hst
  | cons t ts ih =>
    intro sts h st hst
    unfold initIters at h
    cases hni : newTableIter t with
    | error e => rw [hni] at h; cases h
    | ok st0 =>
      rw [hni] at h
      cases hrest : initIters ts with
      | error e => rw [hrest] at h; cases h
      | ok sts0 =>
        rw [hrest] at h
        injection h with h
        rw [← h] at hst
        rcases List.mem_cons.mp hst with he | he
        · exact ⟨t, List.mem_cons_self _ _, by rw [hni, he]⟩
        · obtain ⟨u, hu, hnu⟩ := ih sts0 hrest st he
          exact ⟨u, List.mem_cons_of_mem _ hu, hnu⟩

theorem iterNext_start_good {st : IterState} (hLF : st.L ≤ st.F)
    (hs : ((parseBddAll st.bytes st.idxOff st.L).map Record.key).Pairwise
      (fun a b => bytesLe a b))
    {r : Record} {st' : IterState} (h : iterNext st = .ok (some (r, st'))) :
    IterGood ⟨st', r⟩ := by
  obtain ⟨hb, hi, hLF', hstep⟩ := iterNext_spec hLF h
  refine ⟨hLF', ?_⟩
  show ((r :: parseBddAll st'.bytes st'.idxOff st'.L).map Record.key).Pairwise _
  rw [hb, hi, ← hstep]
  exact hs

theorem initHeapGo_good : ∀ (sts : List IterState) (h0 : List CIter) (h : List CIter),
    (∀ st ∈ sts, st.L ≤ st.F ∧
      ((parseBddAll st.bytes st.idxOff st.L).map Record.key).Pairwise
        (fun a b => bytesLe a b)) →
    heapInv h0 → (∀ x ∈ h0, IterGood x) →
    initHeapGo sts h0 = .ok h → heapInv h ∧ ∀ x ∈ h, IterGood x := by
  intro sts
  induction sts with
  | nil =>
    intro h0 h _ hinv hgood hres
    injection hres with hres
    rw [← hres]
    exact ⟨hinv, hgood⟩
  | cons st sts ih =>
    intro h0 h hhyp hinv hgood hres
    unfold initHeapGo at hres
    cases hnx : iterNext st with
    | error e => rw [hnx] at hres; cases hres
    | ok o =>
      rw [hnx] at hres
      cases o with
      | none =>
        exact ih h0 h (fun u hu => hhyp u (List.mem_cons_of_mem _ hu)) hinv hgood hres
      | some q =>
        obtain ⟨hLF, hs⟩ := hhyp st (List.mem_cons_self _ _)
        have hq : IterGood ⟨q.2, q.1⟩ := iterNext_start_good hLF hs hnx
        apply ih _ h (fun u hu => hhyp u (List.mem_cons_of_mem _ hu))
          (heapPush_inv hinv _) ?_ hres
        intro x hx
        rcases heapPush_mem hx with hx2 | hx2
        · exact hgood x hx2
        · rw [hx2]
          exact hq

/-- Priming the heap yields a valid heap of good iterators. -/
theorem initHeap_good : ∀ (sts : List IterState) (h : List CIter),
    (∀ st ∈ sts, st.L ≤ st.F ∧
      ((parseBddAll st.bytes st.idxOff st.L).map Record.key).Pairwise
        (fun a b => bytesLe a b)) →
    initHeap sts = .ok h → heapInv h ∧ ∀ x ∈ h, IterGood x := by
  intro sts h hhyp hres
  apply initHeapGo_good sts [] h hhyp ?_ ?_ hres
  · intro c hc
    simp at hc
  · intro x hx
    cases hx

/-- C7: SSTable sort order.  (1) The builder emits data records in strictly
ascending key order whenever its input key list is strictly ascending;
(2) the flush path feeds it `KeysSorted` of a well-formed memtable, which is
strictly ascending; (3) every memtable reachable by `Apply` from a fresh one
is well-formed; and (4) on the compaction path, whenever the inputs' logical
data sections are sorted, the merge feeds the builder a strictly ascending
key list with a well-formed memtable, so the output data section is again
strictly ascending (each key therefore appears at most once). -/
theorem c7_sstable_sort_order :
    (∀ (mt : Memtable), mt.wf → ∀ (keys : List (List Nat)),
      keys.Pairwise (fun a b => bytesLt a b) →
      ((buildDataRecs keys mt).map Record.key).Pairwise (fun a b => bytesLt a b)) ∧
    (∀ (mt : Memtable), mt.wf → mt.keysSorted.Pairwise (fun a b => bytesLt a b)) ∧
    (∀ (rs : List Record), (rs.foldl Memtable.apply memNew).wf) ∧
    (∀ (inputs : List Table) (outID : Nat) (t : Table),
      (∀ tb ∈ inputs, ∀ st, newTableIter tb = .ok st →
        ((parseBddAll st.bytes st.idxOff 0).map Record.key).Pairwise
          (fun a b => bytesLe a b)) →
      compactionRun inputs outID = .ok (some t) →
      ∃ keys mt2, keys.Pairwise (fun a b => bytesLt a b) ∧ mt2.wf ∧
        openTable (sstBuild keys mt2 16) outID = .ok t ∧
        ((buildDataRecs keys mt2).map Record.key).Pairwise (fun a b => bytesLt a b)) := by
  have hbuild : ∀ (mt : Memtable), mt.wf → ∀ (keys : List (List Nat)),
      keys.Pairwise (fun a b => bytesLt a b) →
      ((buildDataRecs keys mt).map Record.key).Pairwise (fun a b => bytesLt a b) := by
    intro mt hwf keys hsorted
    rw [buildDataRecs_keys hwf]
    exact List.Pairwise.filter _ hsorted
  refine ⟨hbuild, fun mt hwf => keysSorted_strict hwf, fun rs => foldl_apply_wf rs memNew memNew_wf, ?_⟩
  intro inputs outID t hhyp hres
  unfold compactionRun at hres
  by_cases hlen : inputs.length = 0
  · rw [if_pos hlen] at hres
    cases hres
  · rw [if_neg hlen] at hres
    cases hii : initIters inputs with
    | error e => rw [hii] at hres; cases hres
    | ok sts =>
      rw [hii] at hres
      simp only at hres
      cases hih : initHeap sts with
      | error e => rw [hih] at hres; cases hres
      | ok h =>
        rw [hih] at hres
        simp only at hres
        cases hml : mergeLoop (mergeFuel inputs) h memNew [] [] default false with
        | error e => rw [hml] at hres; cases hres
        | ok mk =>
          rw [hml] at hres
          simp only at hres
          cases hot : openTable (sstBuild mk.2 mk.1 16) outID with
          | error e => rw [hot] at hres; cases hres
          | ok t2 =>
            rw [hot] at hres
            simp only at hres
            injection hres with hres
            injection hres with hres
            have hstart : ∀ st ∈ sts, st.L ≤ st.F ∧
                ((parseBddAll st.bytes st.idxOff st.L).map Record.key).Pairwise
                  (fun a b => bytesLe a b) := by
              intro st hst
              obtain ⟨tb, htb, hntb⟩ := initIters_mem inputs sts hii st hst
              obtain ⟨hL0, hF0⟩ := newTableIter_LF hntb
              rw [hL0, hF0]
              exact ⟨le_rfl, hhyp tb htb st hntb⟩
            obtain ⟨hinv, hgood⟩ := initHeap_good sts h hstart hih
            have hsorted := mergeLoop_sorted (mergeFuel inputs) h memNew [] [] default false
              mk.1 mk.2 hinv hgood (by simp) (by simp) (fun _ => rfl)
              List.Pairwise.nil (by simp) memNew_wf (by rw [hml])
            refine ⟨mk.2, mk.1, hsorted.1, hsorted.2, by rw [hot, hres], ?_⟩
            exact hbuild mk.1 hsorted.2 mk.2 hsorted.1

theorem c7_witness :
    mtAB.wf ∧ mtAB.keysSorted.Pairwise (fun a b => bytesLt a b) :=
  ⟨by decide, c7_sstable_sort_order.2.1 mtAB (by decide)⟩

end LSM
